import Mathlib

/-!
# Verification of the numeric-expression evaluator of `numeric_inputs.js`

This file gives a shallow embedding of the arithmetic-expression evaluator
embedded in the numeric-input widget (`app/static/js/numeric_inputs.js`):
the tokenizer, the shunting-yard conversion to reverse-Polish form, the
stack evaluator, the expression-extraction heuristic and the `parseValue`
and `resolveExpressionForInput` entry points.

Modelling decisions:
* JavaScript strings are modelled as `List Char` (with `String` wrappers for
  readability at the top level).
* JavaScript numbers are modelled as `ℚ`.  All values that can occur in the
  evaluator are finite decimals, so the `Number.isFinite` guards of the
  source are trivially satisfied in the model; the `NaN` failure sentinel is
  modelled as `none` of an `Option ℚ` result, exactly as the specification's
  "single designated invalid sentinel".
* The tokenizer's index-based scanning loop is rendered as recursion over
  the remaining character list, with an explicit fuel argument (one unit of
  fuel per loop iteration) so that every definition stays executable by the
  kernel; fuel-irrelevance is proved below.
-/

/-- `isDigit` from the source: `char >= '0' && char <= '9'`. -/
def isDigit (c : Char) : Bool :=
  '0' ≤ c && c ≤ '9'

/-- `isNumericStart` from the source: a digit or a decimal point. -/
def isNumericStart (c : Char) : Bool :=
  c = '.' || isDigit c

/-- The four characters the tokenizer's main loop skips as whitespace
(`' '`, `'\t'`, `'\n'`, `'\r'` — checked explicitly in the source). -/
def isSpaceChar (c : Char) : Bool :=
  c = ' ' || c = '\t' || c = '\n' || c = '\r'

/-- The character class `\s` of the JavaScript regular expressions used by
the widget, and the class trimmed by `String.prototype.trim`.  We model the
ASCII whitespace characters together with NBSP and the BOM; the remaining
Unicode space code points behave identically and never occur in the claims. -/
def isJsWs (c : Char) : Bool :=
  c = ' ' || c = '\t' || c = '\n' || c = '\r' || c = '\x0b' || c = '\x0c' ||
    c = ' ' || c = '﻿'

/-- One character of the class `[0-9+\-*/().\s]` of `EXPRESSION_ALLOWED_RE`. -/
def allowedChar (c : Char) : Bool :=
  isDigit c || c = '+' || c = '-' || c = '*' || c = '/' || c = '(' ||
    c = ')' || c = '.' || isJsWs c

/-- The test `EXPRESSION_ALLOWED_RE.test s` for `/^[0-9+\-*\/().\s]+$/`:
nonempty, and every character in the allowed class. -/
def allowedTest (s : List Char) : Bool :=
  !s.isEmpty && s.all allowedChar

/-- Drop trailing `isJsWs` characters (helper for `jsTrim`). -/
def dropTrailingWs (s : List Char) : List Char :=
  s.foldr (fun c acc => if acc.isEmpty && isJsWs c then [] else c :: acc) []

/-- `String.prototype.trim`: remove leading and trailing whitespace. -/
def jsTrim (s : List Char) : List Char :=
  dropTrailingWs (s.dropWhile isJsWs)

/-- The numeric value of a scanned run of digits. -/
def natOfDigits (ds : List Char) : Nat :=
  ds.foldl (fun acc c => 10 * acc + (c.toNat - '0'.toNat)) 0

/-- The value `Number(numericText)` computes for a scanned numeric run
(digits with at most one decimal point): integer part plus fractional part. -/
def numValue (scanned : List Char) : ℚ :=
  let ip := scanned.takeWhile (fun c => c ≠ '.')
  let fp := (scanned.dropWhile (fun c => c ≠ '.')).drop 1
  (natOfDigits ip : ℚ) + (natOfDigits fp : ℚ) / (10 : ℚ) ^ fp.length

/-- The scanning loop of `parseNumberToken`: consume digits and at most one
decimal point (a second `.` stops the scan), returning the scanned prefix
and the unconsumed rest.  The Boolean argument is the `sawDecimal` flag. -/
def scanNumber : List Char → Bool → List Char × List Char
  | [], _ => ([], [])
  | c :: cs, sawDecimal =>
    if isDigit c then
      let p := scanNumber cs sawDecimal
      (c :: p.1, p.2)
    else if c = '.' then
      if sawDecimal then ([], c :: cs)
      else
        let p := scanNumber cs true
        (c :: p.1, p.2)
    else ([], c :: cs)

/-- `parseNumberToken` of the source, relative to the remaining input: scan
a numeric run from the front; fail (`null`) if it contains no digit.  The
source's `Number.isFinite` check on the scanned value always succeeds for
digit/point runs and has no counterpart in the `ℚ` model. -/
def parseNumberToken (text : List Char) : Option (ℚ × List Char) :=
  let p := scanNumber text false
  if p.1.any isDigit then some (numValue p.1, p.2) else none

/-- The four operator symbols. -/
inductive Op
  | add
  | sub
  | mul
  | div
deriving DecidableEq, Repr

/-- `OPERATOR_PRECEDENCE` from the source. -/
def prec : Op → Nat
  | .add => 1
  | .sub => 1
  | .mul => 2
  | .div => 2

/-- The token type of the source: tagged records
`{type: 'number'|'operator'|'open_paren'|'close_paren', value}`. -/
inductive Token
  | number (value : ℚ)
  | operator (op : Op)
  | openParen
  | closeParen
deriving DecidableEq, Repr

/-- The `previousType` state variable of `tokenizeExpression`. -/
inductive PrevType
  | start
  | number
  | operator
  | open_paren
  | close_paren
deriving DecidableEq, Repr

/-- The class of `previousType` values that make a following `+`/`-` unary
(`start`, `operator`, `open_paren`).  The source tests exactly this class
three times: for `isUnary`, for the `*`/`/` position check (there as
"not `number` and not `close_paren`") and for the `)` position check. -/
def prevUnary : PrevType → Bool
  | .start => true
  | .operator => true
  | .open_paren => true
  | .number => false
  | .close_paren => false

/-- Head-of-list test used for the unary lookahead. -/
def headNumericStart : List Char → Bool
  | [] => false
  | c :: _ => isNumericStart c

/-- The scanning loop of `tokenizeExpression`.  One unit of fuel is one
iteration of the source's `while` loop; `tokenizeAux_fuel` below shows the
result does not depend on the fuel once it exceeds the input length. -/
def tokenizeAux : Nat → List Char → PrevType → Option (List Token)
  | 0, _, _ => none
  | _ + 1, [], _ => some []
  | fuel + 1, c :: cs, prev =>
    if isSpaceChar c then
      tokenizeAux fuel cs prev
    else if isNumericStart c then
      match parseNumberToken (c :: cs) with
      | none => none
      | some (v, rest) =>
        Option.map (fun ts => Token.number v :: ts) (tokenizeAux fuel rest PrevType.number)
    else if c = '+' || c = '-' then
      if prevUnary prev then
        let lookahead := cs.dropWhile isSpaceChar
        if headNumericStart lookahead then
          match parseNumberToken lookahead with
          | none => none
          | some (v, rest) =>
            let signedValue := if c = '-' then -v else v
            Option.map (fun ts => Token.number signedValue :: ts)
              (tokenizeAux fuel rest PrevType.number)
        else if c = '+' then
          tokenizeAux fuel cs PrevType.operator
        else if c = '-' && lookahead.head? = some '(' then
          Option.map (fun ts => Token.number 0 :: Token.operator Op.sub :: ts)
            (tokenizeAux fuel cs PrevType.operator)
        else none
      else
        Option.map (fun ts => Token.operator (if c = '-' then Op.sub else Op.add) :: ts)
          (tokenizeAux fuel cs PrevType.operator)
    else if c = '*' || c = '/' then
      if prevUnary prev then none
      else
        Option.map (fun ts => Token.operator (if c = '/' then Op.div else Op.mul) :: ts)
          (tokenizeAux fuel cs PrevType.operator)
    else if c = '(' then
      Option.map (fun ts => Token.openParen :: ts) (tokenizeAux fuel cs PrevType.open_paren)
    else if c = ')' then
      if prevUnary prev then none
      else
        Option.map (fun ts => Token.closeParen :: ts) (tokenizeAux fuel cs PrevType.close_paren)
    else none

/-- Run the tokenizer with canonical (always sufficient) fuel from a given
`previousType` state. -/
def tkRun (s : List Char) (prev : PrevType) : Option (List Token) :=
  tokenizeAux (s.length + 1) s prev

/-- `tokenizeExpression` of the source. -/
def tokenizeExpression (s : List Char) : Option (List Token) :=
  tkRun s PrevType.start

/-- The inner `while` loop of `toRpn` for an incoming operator: pop
operators of precedence `≥` the incoming one from the stack (in order) and
return them together with the remaining stack. -/
def popGE (o : Op) : List Token → List Token × List Token
  | [] => ([], [])
  | t :: ts =>
    match t with
    | .operator o2 =>
      if prec o2 ≥ prec o then
        let p := popGE o ts
        (t :: p.1, p.2)
      else ([], t :: ts)
    | _ => ([], t :: ts)

/-- The `close_paren` loop of `toRpn`: pop until an open paren is found
(discarding it); `none` if there is none (`foundOpen` stays false). -/
def popTillOpen : List Token → Option (List Token × List Token)
  | [] => none
  | t :: ts =>
    match t with
    | .openParen => some ([], ts)
    | _ => Option.map (fun p => (t :: p.1, p.2)) (popTillOpen ts)

/-- The final loop of `toRpn`: pop all remaining operators; `none` if a
parenthesis token remains on the stack. -/
def popAll : List Token → Option (List Token)
  | [] => some []
  | t :: ts =>
    match t with
    | .openParen => none
    | .closeParen => none
    | _ => Option.map (fun p => t :: p) (popAll ts)

/-- The main loop of `toRpn`, with the output accumulated in `out` (the
source pushes onto a shared `output` array) and the operator stack in
`ops`. -/
def toRpnAux : List Token → List Token → List Token → Option (List Token)
  | [], ops, out => Option.map (fun p => out ++ p) (popAll ops)
  | .number v :: ts, ops, out => toRpnAux ts ops (out ++ [Token.number v])
  | .operator o :: ts, ops, out =>
    let p := popGE o ops
    toRpnAux ts (Token.operator o :: p.2) (out ++ p.1)
  | .openParen :: ts, ops, out => toRpnAux ts (Token.openParen :: ops) out
  | .closeParen :: ts, ops, out =>
    match popTillOpen ops with
    | none => none
    | some p => toRpnAux ts p.2 (out ++ p.1)

/-- `toRpn` of the source. -/
def toRpn (tokens : List Token) : Option (List Token) :=
  toRpnAux tokens [] []

/-- The loop of `evaluateRpn`, with the value stack explicit.  An operator
pops the right operand first; division by zero fails; parenthesis tokens
(whose `value` is not an operator symbol) and underfull stacks fail.  The
`Number.isFinite` check after each step is trivially satisfied in `ℚ`.  At
the end exactly one value must remain. -/
def evalRpnAux : List Token → List ℚ → Option ℚ
  | [], stack =>
    match stack with
    | [v] => some v
    | _ => none
  | .number v :: ts, stack => evalRpnAux ts (v :: stack)
  | .operator o :: ts, stack =>
    match stack with
    | right :: left :: rest =>
      match o with
      | .add => evalRpnAux ts ((left + right) :: rest)
      | .sub => evalRpnAux ts ((left - right) :: rest)
      | .mul => evalRpnAux ts ((left * right) :: rest)
      | .div => if right = 0 then none else evalRpnAux ts ((left / right) :: rest)
    | _ => none
  | .openParen :: _, _ => none
  | .closeParen :: _, _ => none

/-- `evaluateRpn` of the source. -/
def evaluateRpn (rpnTokens : List Token) : Option ℚ :=
  evalRpnAux rpnTokens []

/-- `evaluateExpression` of the source (on character lists): trim, check the
allowed-character pattern, tokenize, convert to RPN, evaluate; every failure
(and an empty token or RPN list) yields the sentinel. -/
def evaluateExpressionL (expression : List Char) : Option ℚ :=
  let trimmed := jsTrim expression
  if trimmed.isEmpty then none
  else if !allowedTest trimmed then none
  else
    match tokenizeExpression trimmed with
    | none => none
    | some tokens =>
      if tokens.isEmpty then none
      else
        match toRpn tokens with
        | none => none
        | some rpn =>
          if rpn.isEmpty then none
          else evaluateRpn rpn

/-- `evaluateExpression` on Lean strings. -/
def evaluateExpression (s : String) : Option ℚ :=
  evaluateExpressionL s.data

/-- One character of the class `[+\-*/()]` of `EXPRESSION_CHARS_RE` (the
operator-character test of `extractExpression`). -/
def isExprOpChar (c : Char) : Bool :=
  c = '+' || c = '-' || c = '*' || c = '/' || c = '(' || c = ')'

/-- The body of `PLAIN_NUMBER_RE` after the optional sign:
`(\d+(\.\d*)?|\.\d+)`. -/
def plainBody (s : List Char) : Bool :=
  let d := s.takeWhile isDigit
  let r := s.dropWhile isDigit
  if d.isEmpty then
    match r with
    | '.' :: rest => !rest.isEmpty && rest.all isDigit
    | _ => false
  else
    match r with
    | [] => true
    | '.' :: rest => rest.all isDigit
    | _ => false

/-- The test `PLAIN_NUMBER_RE.test s` for `/^[+-]?(?:\d+(?:\.\d*)?|\.\d+)$/`. -/
def plainNumber : List Char → Bool
  | [] => false
  | c :: cs => if c = '+' || c = '-' then plainBody cs else plainBody (c :: cs)

/-- `extractExpression` of the source: trim; strip a leading `=` (trimming
again); reject an empty result, a disallowed character, or (without the `=`
prefix) a whitespace-compacted form with no operator character or one that
matches the plain-number pattern. -/
def extractExpressionL (text : List Char) : Option (List Char) :=
  let trimmed := jsTrim text
  if trimmed.isEmpty then none
  else
    let hadLeadingEquals := trimmed.head? = some '='
    let stripped := if hadLeadingEquals then jsTrim (trimmed.drop 1) else trimmed
    if stripped.isEmpty then none
    else if !allowedTest stripped then none
    else
      let compact := stripped.filter (fun c => !isJsWs c)
      if compact.isEmpty then none
      else if !hadLeadingEquals && !compact.any isExprOpChar then none
      else if !hadLeadingEquals && plainNumber compact then none
      else some stripped

/-- `extractExpression` on Lean strings. -/
def extractExpression (s : String) : Option String :=
  Option.map (fun l => String.mk l) (extractExpressionL s.data)

/-- Hexadecimal digit test for the `0x` literals accepted by `Number`. -/
def isHexDigit (c : Char) : Bool :=
  isDigit c || ('a' ≤ c && c ≤ 'f') || ('A' ≤ c && c ≤ 'F')

/-- Octal digit test for `0o` literals. -/
def isOctDigit (c : Char) : Bool :=
  '0' ≤ c && c ≤ '7'

/-- Binary digit test for `0b` literals. -/
def isBinDigit (c : Char) : Bool :=
  c = '0' || c = '1'

/-- Value of a single hexadecimal digit. -/
def hexVal (c : Char) : Nat :=
  if isDigit c then c.toNat - '0'.toNat
  else if 'a' ≤ c && c ≤ 'f' then c.toNat - 'a'.toNat + 10
  else c.toNat - 'A'.toNat + 10

/-- Value of a digit string in base `b`. -/
def natOfBase (b : Nat) (ds : List Char) : Nat :=
  ds.foldl (fun acc c => b * acc + hexVal c) 0

/-- Exponent part of a decimal literal: `(+|-)? digits`. -/
def expParse (s : List Char) : Option Int :=
  match s with
  | '+' :: r => if !r.isEmpty && r.all isDigit then some (natOfDigits r : Int) else none
  | '-' :: r => if !r.isEmpty && r.all isDigit then some (-(natOfDigits r : Int)) else none
  | r => if !r.isEmpty && r.all isDigit then some (natOfDigits r : Int) else none

/-- Apply a decimal exponent to a mantissa. -/
def applyExp (base : ℚ) (e : Int) : ℚ :=
  base * (10 : ℚ) ^ e

/-- Unsigned decimal literal of the string-to-number grammar:
`digits ('.' digits?)? exponent?` or `'.' digits exponent?`, consuming the
whole string.  `Infinity` (which is not finite) and garbage both yield
`none`. -/
def decBody (s : List Char) : Option ℚ :=
  let ip := s.takeWhile isDigit
  let r1 := s.dropWhile isDigit
  match r1 with
  | [] => if ip.isEmpty then none else some (natOfDigits ip : ℚ)
  | '.' :: r2 =>
    let fp := r2.takeWhile isDigit
    let r3 := r2.dropWhile isDigit
    if ip.isEmpty && fp.isEmpty then none
    else
      let base : ℚ := (natOfDigits ip : ℚ) + (natOfDigits fp : ℚ) / (10 : ℚ) ^ fp.length
      match r3 with
      | [] => some base
      | e :: r4 =>
        if e = 'e' || e = 'E' then Option.map (applyExp base) (expParse r4) else none
  | e :: r4 =>
    if (e = 'e' || e = 'E') && !ip.isEmpty then
      Option.map (applyExp (natOfDigits ip : ℚ)) (expParse r4)
    else none

/-- Signed decimal literal. -/
def decParse (s : List Char) : Option ℚ :=
  match s with
  | '+' :: r => decBody r
  | '-' :: r => Option.map (fun v => -v) (decBody r)
  | r => decBody r

/-- The host language's `Number(string)` coercion, restricted to finite
results (`none` models both `NaN` and the infinities, which `parseValue`
treats identically through its `Number.isFinite` check): trim whitespace;
the empty string is `0`; `0x`/`0o`/`0b` integer literals (unsigned); else a
signed decimal literal with optional fraction and exponent. -/
def jsNumber (s : List Char) : Option ℚ :=
  let t := jsTrim s
  match t with
  | [] => some 0
  | c1 :: c2 :: rest =>
    if c1 = '0' && (c2 = 'x' || c2 = 'X') then
      if !rest.isEmpty && rest.all isHexDigit then some (natOfBase 16 rest : ℚ) else none
    else if c1 = '0' && (c2 = 'o' || c2 = 'O') then
      if !rest.isEmpty && rest.all isOctDigit then some (natOfBase 8 rest : ℚ) else none
    else if c1 = '0' && (c2 = 'b' || c2 = 'B') then
      if !rest.isEmpty && rest.all isBinDigit then some (natOfBase 2 rest : ℚ) else none
    else decParse (c1 :: c2 :: rest)
  | t1 => decParse t1

/-- The value of an unsigned plain decimal body (`digits ('.' digits?)?`
or `'.' digits`). -/
def plainBodyVal (s : List Char) : ℚ :=
  let ip := s.takeWhile isDigit
  let fp := (s.dropWhile isDigit).drop 1
  (natOfDigits ip : ℚ) + (natOfDigits fp : ℚ) / (10 : ℚ) ^ fp.length

/-- Reference model of the host's `parseFloat`, restricted to strings that
match the plain signed decimal pattern (claim C6 compares `parseValue`
against it on exactly those strings). -/
def parseFloatPlain (s : List Char) : ℚ :=
  match s with
  | '+' :: r => plainBodyVal r
  | '-' :: r => -(plainBodyVal r)
  | r => plainBodyVal r

/-- `parseValue` of the source (on character lists; the
`HTMLInputElement`/`null` unwrapping of the source is outside the model):
trim; try the expression path when `extractExpression` recognizes one and
the evaluation is finite; otherwise strip commas and use `Number`; the two
final fallback branches of the source both return the sentinel. -/
def parseValueL (value : List Char) : Option ℚ :=
  let trimmed := jsTrim value
  if trimmed.isEmpty then none
  else
    match
      (match extractExpressionL trimmed with
       | some expression => evaluateExpressionL expression
       | none => none) with
    | some evaluated => some evaluated
    | none =>
      let normalized := trimmed.filter (fun c => c ≠ ',')
      match jsNumber normalized with
      | some numeric => some numeric
      | none => if allowedTest normalized then none else none

/-- `parseValue` on Lean strings. -/
def parseValue (s : String) : Option ℚ :=
  parseValueL s.data

/-- The part of an `HTMLInputElement` the resolver reads and writes: its
current string value and its `step` attribute. -/
structure NumericField where
  value : List Char
  step : Option (List Char)
deriving DecidableEq, Repr

/-- `getStepDecimalPlaces` of the source: number of decimal digits implied
by the field's `step` attribute (`null` for a missing/`any`/integral step;
the `replace(/[^0-9].*$/, '')` keeps the leading digit run after the first
decimal point). -/
def getStepDecimalPlaces (f : NumericField) : Option Nat :=
  match f.step with
  | none => none
  | some stepAttr =>
    let trimmed := jsTrim stepAttr
    if trimmed.isEmpty || trimmed.map Char.toLower = ['a', 'n', 'y'] then none
    else if !trimmed.any (fun c => c = '.') then none
    else
      let decimalPortion := ((trimmed.dropWhile (fun c => c ≠ '.')).drop 1).takeWhile isDigit
      if decimalPortion.isEmpty then none else some decimalPortion.length

/-- `value.toFixed(places)` followed by `Number(...)`: round to `places`
decimal digits, ties away from zero towards `+∞` (the ECMA `toFixed` picks
the larger candidate on a tie). -/
def toFixedRound (q : ℚ) (places : Nat) : ℚ :=
  ((q * (10 : ℚ) ^ places + 1 / 2).floor : ℚ) / (10 : ℚ) ^ places

/-- Drop trailing `'0'` characters (for the shortest decimal rendering). -/
def dropTrailingZeros (s : List Char) : List Char :=
  s.foldr (fun c acc => if acc.isEmpty && c = '0' then [] else c :: acc) []

/-- Decimal digits of a natural number (fuel-indexed helper). -/
def natDigitsAux : Nat → Nat → List Char
  | 0, _ => []
  | _ + 1, 0 => []
  | fuel + 1, n => natDigitsAux fuel (n / 10) ++ [Char.ofNat ('0'.toNat + n % 10)]

/-- Decimal digits of a natural number. -/
def natChars (n : Nat) : List Char :=
  if n = 0 then ['0'] else natDigitsAux (n + 1) n

/-- Smallest `k ≤ 100` with `den ∣ 10 ^ k`, if any. -/
def pow10Exp (d : Nat) : Option Nat :=
  (List.range 101).find? (fun k => 10 ^ k % d = 0)

/-- `Number.prototype.toString` for the decimal values the resolver
produces: sign, integer digits, and the fraction digits without trailing
zeros.  The exponential notations JavaScript switches to for magnitudes
`≥ 1e21` or `< 1e-6`, the shortest-round-trip double rendering for values
whose denominator is not a power of ten, and the `-0` case are not
modelled; no claim depends on them. -/
def ratToChars (q : ℚ) : List Char :=
  let sign : List Char := if q < 0 then ['-'] else []
  let n := q.num.natAbs
  let d := q.den
  match pow10Exp d with
  | none => sign ++ natChars n ++ '/' :: natChars d
  | some k =>
    let digits := natChars (n * (10 ^ k / d))
    if k = 0 then sign ++ digits
    else
      let padded :=
        if digits.length ≤ k then List.replicate (k + 1 - digits.length) '0' ++ digits
        else digits
      let ipart := padded.take (padded.length - k)
      let fpart := dropTrailingZeros (padded.drop (padded.length - k))
      if fpart.isEmpty then sign ++ ipart else sign ++ ipart ++ '.' :: fpart

/-- `formatResolvedValue` of the source: round to the step-implied number
of decimal places (10 when unspecified; `toFixed` throws above 100 digits
and the `catch` keeps the raw value) and render.  The source's
`Number.isFinite` guards are trivially satisfied in the `ℚ` model. -/
def formatResolvedValue (f : NumericField) (value : ℚ) : List Char :=
  let decimalPlaces := getStepDecimalPlaces f
  let places := match decimalPlaces with | some n => n | none => 10
  let rounded := if places ≤ 100 then toFixedRound value places else value
  ratToChars rounded

/-- `resolveExpressionForInput` of the source, on the modelled field state:
returns the updated field and whether the `input`/`change` events were
dispatched.  `dispatchEvents = none` models a missing `options` argument
(`!options || options.dispatchEvents !== false` dispatches unless
`dispatchEvents` is literally `false`). -/
def resolveField (f : NumericField) (dispatchEvents : Option Bool) : NumericField × Bool :=
  let rawValue := f.value
  match extractExpressionL rawValue with
  | none => (f, false)
  | some expression =>
    match evaluateExpressionL expression with
    | none => (f, false)
    | some result =>
      let formatted := formatResolvedValue f result
      if formatted = rawValue then (f, false)
      else
        let updated : NumericField := { f with value := formatted }
        let shouldDispatch := dispatchEvents ≠ some false
        if shouldDispatch then (updated, true) else (updated, false)

/-!
## Reference grammar and reference evaluator (claim C1)

`Expr`, `Expr.print`, `Expr.refEval` form the reference side of claim C1:
an abstract syntax tree for the claim's grammar, the expression string it
denotes, and "standard left-to-right, precedence-respecting arithmetic
evaluation in which parenthesized subexpressions are evaluated first"
(division by zero failing).  `Expr.levelOk` carves out the trees of the
layered grammar `A ::= A+M | A-M | M`, `M ::= M*F | M/F | F`,
`F ::= [sign] literal | (A)`.
-/

/-- A decimal literal as the tokenizer scans one: integer digits and an
optional fractional part after a single decimal point (`"2"`, `"2."`,
`".5"`). -/
structure NumLit where
  intPart : List Char
  fracPart : Option (List Char)
deriving DecidableEq, Repr

/-- Well-formed literal: digits only and at least one digit overall. -/
def NumLit.wf (n : NumLit) : Bool :=
  n.intPart.all isDigit &&
    (match n.fracPart with
     | none => !n.intPart.isEmpty
     | some l => l.all isDigit && (!n.intPart.isEmpty || !l.isEmpty))

/-- The characters of the literal. -/
def NumLit.chars (n : NumLit) : List Char :=
  n.intPart ++ (match n.fracPart with | none => [] | some l => '.' :: l)

/-- The numeric value of the literal. -/
def NumLit.val (n : NumLit) : ℚ :=
  numValue n.chars

/-- Abstract syntax of claim C1's grammar: signed decimal literals
(`sgn = some true` is a unary `-`, `some false` a unary `+`), binary
`+ - * /`, and parentheses. -/
inductive Expr
  | num (sgn : Option Bool) (lit : NumLit)
  | add (a b : Expr)
  | sub (a b : Expr)
  | mul (a b : Expr)
  | div (a b : Expr)
  | paren (e : Expr)
deriving DecidableEq, Repr

/-- All literals of the tree are well formed. -/
def Expr.wf : Expr → Bool
  | .num _ lit => lit.wf
  | .add a b => a.wf && b.wf
  | .sub a b => a.wf && b.wf
  | .mul a b => a.wf && b.wf
  | .div a b => a.wf && b.wf
  | .paren e => e.wf

/-- The tree fits the grammar at precedence level `l` (`0` additive,
`1` multiplicative, `2` factor): `+`/`-` nodes only at level `0` with an
additive left and multiplicative right child; `*`/`/` nodes at levels
`≤ 1`; literals and parenthesized subtrees at every level. -/
def Expr.levelOk : Expr → Nat → Bool
  | .num _ _, _ => true
  | .paren e, _ => e.levelOk 0
  | .add a b, l => decide (l = 0) && a.levelOk 0 && b.levelOk 1
  | .sub a b, l => decide (l = 0) && a.levelOk 0 && b.levelOk 1
  | .mul a b, l => decide (l ≤ 1) && a.levelOk 1 && b.levelOk 2
  | .div a b, l => decide (l ≤ 1) && a.levelOk 1 && b.levelOk 2

/-- Characters of an optional unary sign. -/
def signChars : Option Bool → List Char
  | none => []
  | some false => ['+']
  | some true => ['-']

/-- The expression string the tree denotes (no whitespace; parentheses
exactly at `paren` nodes). -/
def Expr.print : Expr → List Char
  | .num sgn lit => signChars sgn ++ lit.chars
  | .add a b => a.print ++ '+' :: b.print
  | .sub a b => a.print ++ '-' :: b.print
  | .mul a b => a.print ++ '*' :: b.print
  | .div a b => a.print ++ '/' :: b.print
  | .paren e => '(' :: e.print ++ [')']

/-- The printed string as a Lean string. -/
def Expr.printStr (e : Expr) : String :=
  String.mk e.print

/-- The signed value of a literal node. -/
def signedVal (sgn : Option Bool) (lit : NumLit) : ℚ :=
  if sgn = some true then -lit.val else lit.val

/-- The token sequence the tokenizer produces for the printed tree. -/
def Expr.tokens : Expr → List Token
  | .num sgn lit => [Token.number (signedVal sgn lit)]
  | .add a b => a.tokens ++ Token.operator Op.add :: b.tokens
  | .sub a b => a.tokens ++ Token.operator Op.sub :: b.tokens
  | .mul a b => a.tokens ++ Token.operator Op.mul :: b.tokens
  | .div a b => a.tokens ++ Token.operator Op.div :: b.tokens
  | .paren e => Token.openParen :: e.tokens ++ [Token.closeParen]

/-- The reverse-Polish form of the tree (its postfix reading). -/
def Expr.rpn : Expr → List Token
  | .num sgn lit => [Token.number (signedVal sgn lit)]
  | .add a b => a.rpn ++ b.rpn ++ [Token.operator Op.add]
  | .sub a b => a.rpn ++ b.rpn ++ [Token.operator Op.sub]
  | .mul a b => a.rpn ++ b.rpn ++ [Token.operator Op.mul]
  | .div a b => a.rpn ++ b.rpn ++ [Token.operator Op.div]
  | .paren e => e.rpn

/-- The reference evaluator of claim C1 (built from the claim's words, to
be compared with `evaluateExpression`): standard recursive evaluation in
which `*`/`/` bind tighter than `+`/`-` (encoded in the tree shape), both
levels associate left-to-right (left-nested trees), parenthesized
subexpressions are evaluated first, and division by zero fails. -/
def Expr.refEval : Expr → Option ℚ
  | .num sgn lit => some (signedVal sgn lit)
  | .add a b =>
    match a.refEval, b.refEval with
    | some x, some y => some (x + y)
    | _, _ => none
  | .sub a b =>
    match a.refEval, b.refEval with
    | some x, some y => some (x - y)
    | _, _ => none
  | .mul a b =>
    match a.refEval, b.refEval with
    | some x, some y => some (x * y)
    | _, _ => none
  | .div a b =>
    match a.refEval, b.refEval with
    | some x, some y => if y = 0 then none else some (x / y)
    | _, _ => none
  | .paren e => e.refEval

/-- The output `toRpnAux` produces from a given token list and operator
stack, without the accumulator (related to `toRpnAux` by
`toRpnAux_shunt`). -/
def shunt : List Token → List Token → Option (List Token)
  | [], ops => popAll ops
  | .number v :: ts, ops => Option.map (fun q => Token.number v :: q) (shunt ts ops)
  | .operator o :: ts, ops =>
    let p := popGE o ops
    Option.map (fun q => p.1 ++ q) (shunt ts (Token.operator o :: p.2))
  | .openParen :: ts, ops => shunt ts (Token.openParen :: ops)
  | .closeParen :: ts, ops =>
    match popTillOpen ops with
    | none => none
    | some p => Option.map (fun q => p.1 ++ q) (shunt ts p.2)

/-- The stack top is not an operator token. -/
def headNotOp : List Token → Bool
  | Token.operator _ :: _ => false
  | _ => true

/-- The stack top is not an operator of multiplicative precedence. -/
def topBelowMul : List Token → Bool
  | Token.operator o :: _ => decide (prec o < 2)
  | _ => true

/-- The continuation starts with something that flushes any pending
operator: nothing, a close paren, or an operator. -/
def flushesAll : List Token → Bool
  | [] => true
  | Token.closeParen :: _ => true
  | Token.operator _ :: _ => true
  | _ => false

/-- The continuation starts with something that flushes a pending additive
operator: nothing, a close paren, or an additive operator. -/
def flushesLow : List Token → Bool
  | [] => true
  | Token.closeParen :: _ => true
  | Token.operator o :: _ => decide (prec o = 1)
  | _ => false

/-- Stack/continuation side conditions for processing a level-`l`
subexpression. -/
def shuntCond : Nat → List Token → List Token → Prop
  | 0, rest, ops => headNotOp ops = true ∧ flushesLow rest = true
  | 1, rest, ops => topBelowMul ops = true ∧ flushesAll rest = true
  | _ + 2, _, _ => True

/-- The characters that may legally follow a printed subexpression: end of
input, an operator, or a parenthesis (never a digit, a point or
whitespace, which could extend a trailing literal). -/
def nextOk : List Char → Bool
  | [] => true
  | c :: _ => c = '+' || c = '-' || c = '*' || c = '/' || c = ')' || c = '('

section RatReducible
attribute [local semireducible] Rat.add Rat.mul Rat.sub Rat.inv Nat.gcd

/-! ## Scanner lemmas -/

theorem dropWhile_length_le (p : Char → Bool) :
    ∀ s : List Char, (s.dropWhile p).length ≤ s.length := by
  intro s
  induction s with
  | nil => simp
  | cons c cs ih =>
    by_cases hc : p c
    · simp only [List.dropWhile_cons, hc, if_true, List.length_cons]
      omega
    · simp [List.dropWhile_cons, hc]

theorem scanNumber_append (s : List Char) (b : Bool) :
    (scanNumber s b).1 ++ (scanNumber s b).2 = s := by
  induction s generalizing b with
  | nil => simp [scanNumber]
  | cons c cs ih =>
    simp only [scanNumber]
    by_cases hd : isDigit c
    · simp [hd, ih]
    · by_cases hc : c = '.'
      · subst hc
        have hdd : isDigit '.' = false := by decide
        cases b with
        | true => simp [hdd]
        | false => simp [hdd, ih]
      · simp [hd, hc]

theorem scanNumber_rest_le (s : List Char) (b : Bool) :
    (scanNumber s b).2.length ≤ s.length := by
  have h := congrArg List.length (scanNumber_append s b)
  simp only [List.length_append] at h
  omega

theorem numericStart_not_space {c : Char} (h : isNumericStart c = true) :
    isSpaceChar c = false := by
  by_contra hs
  rw [Bool.not_eq_false] at hs
  simp only [isSpaceChar, Bool.or_eq_true, decide_eq_true_eq] at hs
  rcases hs with ((rfl | rfl) | rfl) | rfl <;> exact absurd h (by decide)

theorem scanNumber_rest_numericStart {c : Char} {cs : List Char}
    (h : isNumericStart c = true) :
    (scanNumber (c :: cs) false).2.length ≤ cs.length := by
  simp only [isNumericStart, Bool.or_eq_true, decide_eq_true_eq] at h
  simp only [scanNumber]
  by_cases hd : isDigit c
  · simpa [hd] using scanNumber_rest_le cs false
  · have hc : c = '.' := by
      rcases h with h | h
      · exact h
      · exact absurd h (by simp [hd])
    simpa [hd, hc] using scanNumber_rest_le cs true

theorem parseNumberToken_rest_le {text : List Char} {v : ℚ} {rest : List Char}
    (h : parseNumberToken text = some (v, rest)) : rest.length ≤ text.length := by
  unfold parseNumberToken at h
  by_cases ha : (scanNumber text false).1.any isDigit
  · simp only [ha, if_true] at h
    obtain ⟨-, hr⟩ := Prod.mk.injEq .. ▸ Option.some.injEq .. ▸ h
    exact hr ▸ scanNumber_rest_le text false
  · simp [ha] at h

theorem parseNumberToken_head {text : List Char} {v : ℚ} {rest : List Char}
    (h : parseNumberToken text = some (v, rest)) : headNumericStart text = true := by
  match text with
  | [] => simp [parseNumberToken, scanNumber] at h
  | c :: cs =>
    simp only [headNumericStart]
    by_contra hns
    rw [Bool.not_eq_true] at hns
    have hd : isDigit c = false := by
      have := hns
      simp only [isNumericStart, Bool.or_eq_false_iff] at this
      exact this.2
    have hc : ¬ c = '.' := by
      intro hc
      simp [isNumericStart, hc] at hns
    simp [parseNumberToken, scanNumber, hd, hc] at h

theorem parseNumberToken_rest_lt {c : Char} {cs : List Char} {v : ℚ} {rest : List Char}
    (hns : isNumericStart c = true)
    (h : parseNumberToken (c :: cs) = some (v, rest)) : rest.length ≤ cs.length := by
  unfold parseNumberToken at h
  by_cases ha : (scanNumber (c :: cs) false).1.any isDigit
  · simp only [ha, if_true, Option.some.injEq, Prod.mk.injEq] at h
    exact h.2 ▸ scanNumber_rest_numericStart hns
  · simp [ha] at h

/-! ## Fuel irrelevance and `previousType` congruence for the tokenizer -/

theorem tokenizeAux_fuel :
    ∀ f₁ : Nat, ∀ s : List Char, ∀ f₂ : Nat, ∀ p : PrevType,
      s.length < f₁ → s.length < f₂ → tokenizeAux f₁ s p = tokenizeAux f₂ s p := by
  intro f₁
  induction f₁ using Nat.strong_induction_on with
  | _ f₁ ih =>
    intro s f₂ p h₁ h₂
    match f₁, f₂, h₁, h₂ with
    | a + 1, b + 1, h₁, h₂ =>
      match s with
      | [] => rfl
      | c :: cs =>
        have hlen : cs.length < a := by simpa using Nat.lt_of_succ_lt_succ h₁
        have hlen2 : cs.length < b := by simpa using Nat.lt_of_succ_lt_succ h₂
        simp only [tokenizeAux]
        by_cases hws : isSpaceChar c
        · simp only [hws, if_true]
          exact ih a (Nat.lt_succ_self a) cs b p hlen hlen2
        · simp only [hws, Bool.false_eq_true, if_false]
          by_cases hns : isNumericStart c
          · simp only [hns, if_true]
            cases hp : parseNumberToken (c :: cs) with
            | none => rfl
            | some pr =>
              obtain ⟨v, rest⟩ := pr
              have hr : rest.length ≤ cs.length := parseNumberToken_rest_lt hns hp
              simp [ih a (Nat.lt_succ_self a) rest b PrevType.number
                (by omega) (by omega)]
          · simp only [hns, Bool.false_eq_true, if_false]
            by_cases hpm : (c = '+' || c = '-') = true
            · simp only [hpm, if_true]
              by_cases hu : prevUnary p
              · simp only [hu, if_true]
                by_cases hh : headNumericStart (cs.dropWhile isSpaceChar)
                · simp only [hh, if_true]
                  cases hp : parseNumberToken (cs.dropWhile isSpaceChar) with
                  | none => rfl
                  | some pr =>
                    obtain ⟨v, rest⟩ := pr
                    have hr : rest.length ≤ (cs.dropWhile isSpaceChar).length :=
                      parseNumberToken_rest_le hp
                    have hdw : (cs.dropWhile isSpaceChar).length ≤ cs.length :=
                      dropWhile_length_le isSpaceChar cs
                    simp [ih a (Nat.lt_succ_self a) rest b PrevType.number
                      (by omega) (by omega)]
                · simp only [hh, Bool.false_eq_true, if_false]
                  by_cases hplus : c = '+'
                  · simp only [hplus, if_true]
                    exact ih a (Nat.lt_succ_self a) cs b PrevType.operator hlen hlen2
                  · simp only [hplus, if_false]
                    by_cases hmin : (c = '-' && (cs.dropWhile isSpaceChar).head? = some '(') = true
                    · simp only [hmin, if_true]
                      rw [ih a (Nat.lt_succ_self a) cs b PrevType.operator hlen hlen2]
                    · simp only [hmin, Bool.false_eq_true, if_false]
              · simp only [hu, Bool.false_eq_true, if_false]
                rw [ih a (Nat.lt_succ_self a) cs b PrevType.operator hlen hlen2]
            · simp only [hpm, Bool.false_eq_true, if_false]
              by_cases hmd : (c = '*' || c = '/') = true
              · simp only [hmd, if_true]
                by_cases hu : prevUnary p
                · simp only [hu, if_true]
                · simp only [hu, Bool.false_eq_true, if_false]
                  rw [ih a (Nat.lt_succ_self a) cs b PrevType.operator hlen hlen2]
              · simp only [hmd, Bool.false_eq_true, if_false]
                by_cases hop : c = '('
                · simp only [hop, if_true]
                  rw [ih a (Nat.lt_succ_self a) cs b PrevType.open_paren hlen hlen2]
                · simp only [hop, if_false]
                  by_cases hcp : c = ')'
                  · simp only [hcp, if_true]
                    by_cases hu : prevUnary p
                    · simp only [hu, if_true]
                    · simp only [hu, Bool.false_eq_true, if_false]
                      rw [ih a (Nat.lt_succ_self a) cs b PrevType.close_paren hlen hlen2]
                  · simp only [hcp, if_false]

theorem tokenizeAux_prev {f : Nat} {s : List Char} {p q : PrevType}
    (h : prevUnary p = prevUnary q) : tokenizeAux f s p = tokenizeAux f s q := by
  induction f generalizing s p q with
  | zero => rfl
  | succ n ih =>
    match s with
    | [] => rfl
    | c :: cs =>
      simp only [tokenizeAux, h]
      by_cases hws : isSpaceChar c
      · simp only [hws, if_true]
        exact ih h
      · simp only [hws, Bool.false_eq_true, if_false]

/-! ## Single-step unfolding lemmas for the tokenizer -/

theorem tok_ws {f : Nat} {c : Char} {cs : List Char} {p : PrevType}
    (h : isSpaceChar c = true) :
    tokenizeAux (f + 1) (c :: cs) p = tokenizeAux f cs p := by
  simp [tokenizeAux, h]

theorem tok_num {f : Nat} {c : Char} {cs : List Char} {p : PrevType} {v : ℚ}
    {rest : List Char} (hns : isNumericStart c = true)
    (hp : parseNumberToken (c :: cs) = some (v, rest)) :
    tokenizeAux (f + 1) (c :: cs) p =
      Option.map (fun ts => Token.number v :: ts) (tokenizeAux f rest PrevType.number) := by
  simp [tokenizeAux, numericStart_not_space hns, hns, hp]

theorem tok_sign_fold {f : Nat} {cs : List Char} {p : PrevType} {v : ℚ}
    {rest : List Char} (c : Char) (hc : c = '+' ∨ c = '-') (hu : prevUnary p = true)
    (hp : parseNumberToken (cs.dropWhile isSpaceChar) = some (v, rest)) :
    tokenizeAux (f + 1) (c :: cs) p =
      Option.map (fun ts => Token.number (if c = '-' then -v else v) :: ts)
        (tokenizeAux f rest PrevType.number) := by
  have hh := parseNumberToken_head hp
  rcases hc with rfl | rfl <;>
    simp [tokenizeAux, isSpaceChar, isNumericStart, isDigit, hu, hh, hp]

theorem tok_plus_skip {f : Nat} {cs : List Char} {p : PrevType}
    (hu : prevUnary p = true)
    (hh : headNumericStart (cs.dropWhile isSpaceChar) = false) :
    tokenizeAux (f + 1) ('+' :: cs) p = tokenizeAux f cs PrevType.operator := by
  simp [tokenizeAux, isSpaceChar, isNumericStart, isDigit, hu, hh]

theorem tok_minus_paren {f : Nat} {cs : List Char} {p : PrevType}
    (hu : prevUnary p = true)
    (hh : headNumericStart (cs.dropWhile isSpaceChar) = false)
    (hl : (cs.dropWhile isSpaceChar).head? = some '(') :
    tokenizeAux (f + 1) ('-' :: cs) p =
      Option.map (fun ts => Token.number 0 :: Token.operator Op.sub :: ts)
        (tokenizeAux f cs PrevType.operator) := by
  simp [tokenizeAux, isSpaceChar, isNumericStart, isDigit, hu, hh, hl]

theorem tok_sign_dead {f : Nat} {cs : List Char} {p : PrevType}
    (hu : prevUnary p = true)
    (hh : headNumericStart (cs.dropWhile isSpaceChar) = false)
    (hl : (cs.dropWhile isSpaceChar).head? ≠ some '(') :
    tokenizeAux (f + 1) ('-' :: cs) p = none := by
  simp [tokenizeAux, isSpaceChar, isNumericStart, isDigit, hu, hh, hl]

theorem tok_sign_binary {f : Nat} {cs : List Char} {p : PrevType} (c : Char)
    (hc : c = '+' ∨ c = '-') (hu : prevUnary p = false) :
    tokenizeAux (f + 1) (c :: cs) p =
      Option.map (fun ts => Token.operator (if c = '-' then Op.sub else Op.add) :: ts)
        (tokenizeAux f cs PrevType.operator) := by
  rcases hc with rfl | rfl <;>
    simp [tokenizeAux, isSpaceChar, isNumericStart, isDigit, hu]

theorem tok_muldiv {f : Nat} {cs : List Char} {p : PrevType} (c : Char)
    (hc : c = '*' ∨ c = '/') (hu : prevUnary p = false) :
    tokenizeAux (f + 1) (c :: cs) p =
      Option.map (fun ts => Token.operator (if c = '/' then Op.div else Op.mul) :: ts)
        (tokenizeAux f cs PrevType.operator) := by
  rcases hc with rfl | rfl <;>
    simp [tokenizeAux, isSpaceChar, isNumericStart, isDigit, hu]

theorem tok_open {f : Nat} {cs : List Char} {p : PrevType} :
    tokenizeAux (f + 1) ('(' :: cs) p =
      Option.map (fun ts => Token.openParen :: ts) (tokenizeAux f cs PrevType.open_paren) := by
  simp [tokenizeAux, isSpaceChar, isNumericStart, isDigit]

theorem tok_close {f : Nat} {cs : List Char} {p : PrevType} (hu : prevUnary p = false) :
    tokenizeAux (f + 1) (')' :: cs) p =
      Option.map (fun ts => Token.closeParen :: ts) (tokenizeAux f cs PrevType.close_paren) := by
  simp [tokenizeAux, isSpaceChar, isNumericStart, isDigit, hu]

/-! ## Shunting-yard correctness on grammar trees -/

theorem toRpnAux_shunt (ts : List Token) : ∀ ops out : List Token,
    toRpnAux ts ops out = Option.map (fun q => out ++ q) (shunt ts ops) := by
  induction ts with
  | nil =>
    intro ops out
    simp [toRpnAux, shunt]
  | cons t ts ih =>
    intro ops out
    cases t with
    | number v =>
      simp only [toRpnAux, shunt, ih]
      cases shunt ts ops <;> simp
    | operator o =>
      simp only [toRpnAux, shunt, ih]
      cases shunt ts (Token.operator o :: (popGE o ops).2) <;> simp
    | openParen =>
      simp only [toRpnAux, shunt, ih]
    | closeParen =>
      simp only [toRpnAux, shunt]
      cases popTillOpen ops with
      | none => rfl
      | some p =>
        simp only [ih]
        cases shunt ts p.2 <;> simp

theorem popGE_headNotOp {o : Op} {ops : List Token} (h : headNotOp ops = true) :
    popGE o ops = ([], ops) := by
  cases ops with
  | nil => rfl
  | cons t ts => cases t <;> simp_all [popGE, headNotOp]

theorem popGE_topBelowMul {o : Op} {ops : List Token} (ho : prec o = 2)
    (h : topBelowMul ops = true) : popGE o ops = ([], ops) := by
  cases ops with
  | nil => rfl
  | cons t ts =>
    cases t with
    | operator o2 =>
      simp only [topBelowMul, decide_eq_true_eq] at h
      simp only [popGE, ho]
      rw [if_neg (by omega)]
    | number v => rfl
    | openParen => rfl
    | closeParen => rfl

theorem headNotOp_topBelowMul {ops : List Token} (h : headNotOp ops = true) :
    topBelowMul ops = true := by
  cases ops with
  | nil => rfl
  | cons t ts => cases t <;> simp_all [headNotOp, topBelowMul]

theorem flushesLow_all {rest : List Token} (h : flushesLow rest = true) :
    flushesAll rest = true := by
  cases rest with
  | nil => rfl
  | cons t ts => cases t <;> simp_all [flushesLow, flushesAll]

/-- A pending operator on the stack is emitted before anything the
continuation produces, provided the continuation starts with a token that
pops it (or the input ends). -/
theorem shunt_flush (o : Op) (rest ops : List Token)
    (hlow : ∀ o2 ts, rest = Token.operator o2 :: ts → prec o2 ≤ prec o)
    (hfl : flushesAll rest = true) :
    shunt rest (Token.operator o :: ops) =
      Option.map (fun q => Token.operator o :: q) (shunt rest ops) := by
  cases rest with
  | nil =>
    simp [shunt, popAll]
  | cons t ts =>
    cases t with
    | number v => simp [flushesAll] at hfl
    | openParen => simp [flushesAll] at hfl
    | closeParen =>
      simp only [shunt, popTillOpen]
      cases popTillOpen ops with
      | none => rfl
      | some p =>
        simp only [Option.map_some]
        cases hs : shunt ts p.2 <;> simp [hs]
    | operator o2 =>
      have hp : prec o2 ≤ prec o := hlow o2 ts rfl
      simp only [shunt, popGE, ge_iff_le, hp, if_pos]
      cases hs : shunt ts (Token.operator o2 :: (popGE o2 ops).2) <;> simp [hs]

/-- Processing the token sequence of a level-`l` grammar tree emits exactly
its reverse-Polish form before whatever the continuation produces. -/
theorem shunt_tokens (e : Expr) : ∀ l : Nat, ∀ rest ops : List Token,
    e.levelOk l = true → shuntCond l rest ops →
    shunt (e.tokens ++ rest) ops = Option.map (fun q => e.rpn ++ q) (shunt rest ops) := by
  induction e with
  | num sgn lit =>
    intro l rest ops _ _
    simp only [Expr.tokens, Expr.rpn, List.cons_append, List.nil_append, shunt]
    cases hs : shunt rest ops <;> simp [hs]
  | paren e ih =>
    intro l rest ops hl hc
    have hl0 : e.levelOk 0 = true := by simpa [Expr.levelOk] using hl
    simp only [Expr.tokens, Expr.rpn, List.cons_append, List.append_assoc, List.cons_append,
      List.nil_append]
    rw [show shunt (Token.openParen :: (e.tokens ++ (Token.closeParen :: rest))) ops =
        shunt (e.tokens ++ (Token.closeParen :: rest)) (Token.openParen :: ops) from rfl]
    rw [ih 0 (Token.closeParen :: rest) (Token.openParen :: ops) hl0
      ⟨rfl, rfl⟩]
    simp only [shunt, popTillOpen, Option.map_some, List.nil_append]
    cases hs : shunt rest ops <;> simp [hs]
  | add a b iha ihb =>
    intro l rest ops hl hc
    simp only [Expr.levelOk, Bool.and_eq_true, decide_eq_true_eq] at hl
    obtain ⟨⟨hl0, ha⟩, hb⟩ := hl
    subst hl0
    obtain ⟨hno, hfl⟩ := hc
    simp only [Expr.tokens, Expr.rpn, List.append_assoc, List.cons_append]
    rw [iha 0 (Token.operator Op.add :: (b.tokens ++ rest)) ops ha
      ⟨hno, by simp [flushesLow, prec]⟩]
    rw [show shunt (Token.operator Op.add :: (b.tokens ++ rest)) ops =
        Option.map (fun q => (popGE Op.add ops).1 ++ q)
          (shunt (b.tokens ++ rest) (Token.operator Op.add :: (popGE Op.add ops).2)) from rfl]
    rw [popGE_headNotOp hno]
    rw [ihb 1 rest (Token.operator Op.add :: ops) hb
      ⟨by simp [topBelowMul, prec], flushesLow_all hfl⟩]
    rw [shunt_flush Op.add rest ops
      (by
        intro o2 ts hts
        subst hts
        simp only [flushesLow, decide_eq_true_eq] at hfl
        exact le_of_eq hfl)
      (flushesLow_all hfl)]
    cases hs : shunt rest ops <;> simp [hs]
  | sub a b iha ihb =>
    intro l rest ops hl hc
    simp only [Expr.levelOk, Bool.and_eq_true, decide_eq_true_eq] at hl
    obtain ⟨⟨hl0, ha⟩, hb⟩ := hl
    subst hl0
    obtain ⟨hno, hfl⟩ := hc
    simp only [Expr.tokens, Expr.rpn, List.append_assoc, List.cons_append]
    rw [iha 0 (Token.operator Op.sub :: (b.tokens ++ rest)) ops ha
      ⟨hno, by simp [flushesLow, prec]⟩]
    rw [show shunt (Token.operator Op.sub :: (b.tokens ++ rest)) ops =
        Option.map (fun q => (popGE Op.sub ops).1 ++ q)
          (shunt (b.tokens ++ rest) (Token.operator Op.sub :: (popGE Op.sub ops).2)) from rfl]
    rw [popGE_headNotOp hno]
    rw [ihb 1 rest (Token.operator Op.sub :: ops) hb
      ⟨by simp [topBelowMul, prec], flushesLow_all hfl⟩]
    rw [shunt_flush Op.sub rest ops
      (by
        intro o2 ts hts
        subst hts
        simp only [flushesLow, decide_eq_true_eq] at hfl
        exact le_of_eq hfl)
      (flushesLow_all hfl)]
    cases hs : shunt rest ops <;> simp [hs]
  | mul a b iha ihb =>
    intro l rest ops hl hc
    simp only [Expr.levelOk, Bool.and_eq_true, decide_eq_true_eq] at hl
    obtain ⟨⟨hl1, ha⟩, hb⟩ := hl
    have hcond : topBelowMul ops = true ∧ flushesAll rest = true := by
      match l, hl1, hc with
      | 0, _, hc => exact ⟨headNotOp_topBelowMul hc.1, flushesLow_all hc.2⟩
      | 1, _, hc => exact hc
    obtain ⟨htb, hfa⟩ := hcond
    simp only [Expr.tokens, Expr.rpn, List.append_assoc, List.cons_append]
    rw [iha 1 (Token.operator Op.mul :: (b.tokens ++ rest)) ops ha
      ⟨htb, by simp [flushesAll]⟩]
    rw [show shunt (Token.operator Op.mul :: (b.tokens ++ rest)) ops =
        Option.map (fun q => (popGE Op.mul ops).1 ++ q)
          (shunt (b.tokens ++ rest) (Token.operator Op.mul :: (popGE Op.mul ops).2)) from rfl]
    rw [popGE_topBelowMul (by simp [prec]) htb]
    rw [ihb 2 rest (Token.operator Op.mul :: ops) hb trivial]
    rw [shunt_flush Op.mul rest ops
      (by
        intro o2 ts hts
        cases o2 <;> decide)
      hfa]
    cases hs : shunt rest ops <;> simp [hs]
  | div a b iha ihb =>
    intro l rest ops hl hc
    simp only [Expr.levelOk, Bool.and_eq_true, decide_eq_true_eq] at hl
    obtain ⟨⟨hl1, ha⟩, hb⟩ := hl
    have hcond : topBelowMul ops = true ∧ flushesAll rest = true := by
      match l, hl1, hc with
      | 0, _, hc => exact ⟨headNotOp_topBelowMul hc.1, flushesLow_all hc.2⟩
      | 1, _, hc => exact hc
    obtain ⟨htb, hfa⟩ := hcond
    simp only [Expr.tokens, Expr.rpn, List.append_assoc, List.cons_append]
    rw [iha 1 (Token.operator Op.div :: (b.tokens ++ rest)) ops ha
      ⟨htb, by simp [flushesAll]⟩]
    rw [show shunt (Token.operator Op.div :: (b.tokens ++ rest)) ops =
        Option.map (fun q => (popGE Op.div ops).1 ++ q)
          (shunt (b.tokens ++ rest) (Token.operator Op.div :: (popGE Op.div ops).2)) from rfl]
    rw [popGE_topBelowMul (by simp [prec]) htb]
    rw [ihb 2 rest (Token.operator Op.div :: ops) hb trivial]
    rw [shunt_flush Op.div rest ops
      (by
        intro o2 ts hts
        cases o2 <;> decide)
      hfa]
    cases hs : shunt rest ops <;> simp [hs]

/-- Evaluating the reverse-Polish form of a grammar tree pushes its
reference value (or aborts with the sentinel exactly when the reference
evaluation fails). -/
theorem evalRpn_tokens (e : Expr) : ∀ rest : List Token, ∀ stack : List ℚ,
    evalRpnAux (e.rpn ++ rest) stack =
      match e.refEval with
      | none => none
      | some v => evalRpnAux rest (v :: stack) := by
  induction e with
  | num sgn lit =>
    intro rest stack
    simp [Expr.rpn, Expr.refEval, evalRpnAux]
  | paren e ih =>
    intro rest stack
    simpa [Expr.rpn, Expr.refEval] using ih rest stack
  | add a b iha ihb =>
    intro rest stack
    simp only [Expr.rpn, Expr.refEval, List.append_assoc, List.cons_append, List.nil_append]
    rw [iha]
    cases a.refEval with
    | none => rfl
    | some x =>
      show evalRpnAux (b.rpn ++ (Token.operator Op.add :: rest)) (x :: stack) = _
      rw [ihb]
      cases b.refEval with
      | none => rfl
      | some y => simp [evalRpnAux]
  | sub a b iha ihb =>
    intro rest stack
    simp only [Expr.rpn, Expr.refEval, List.append_assoc, List.cons_append, List.nil_append]
    rw [iha]
    cases a.refEval with
    | none => rfl
    | some x =>
      show evalRpnAux (b.rpn ++ (Token.operator Op.sub :: rest)) (x :: stack) = _
      rw [ihb]
      cases b.refEval with
      | none => rfl
      | some y => simp [evalRpnAux]
  | mul a b iha ihb =>
    intro rest stack
    simp only [Expr.rpn, Expr.refEval, List.append_assoc, List.cons_append, List.nil_append]
    rw [iha]
    cases a.refEval with
    | none => rfl
    | some x =>
      show evalRpnAux (b.rpn ++ (Token.operator Op.mul :: rest)) (x :: stack) = _
      rw [ihb]
      cases b.refEval with
      | none => rfl
      | some y => simp [evalRpnAux]
  | div a b iha ihb =>
    intro rest stack
    simp only [Expr.rpn, Expr.refEval, List.append_assoc, List.cons_append, List.nil_append]
    rw [iha]
    cases a.refEval with
    | none => rfl
    | some x =>
      show evalRpnAux (b.rpn ++ (Token.operator Op.div :: rest)) (x :: stack) = _
      rw [ihb]
      cases b.refEval with
      | none => rfl
      | some y =>
        by_cases hy : y = 0 <;> simp [evalRpnAux, hy]

/-! ## Literal and printed-character lemmas -/

theorem scanNumber_digits {ds : List Char} (hd : ds.all isDigit = true)
    {r : List Char} {b : Bool} :
    scanNumber (ds ++ r) b = (ds ++ (scanNumber r b).1, (scanNumber r b).2) := by
  induction ds with
  | nil => simp
  | cons c cs ih =>
    simp only [List.all_cons, Bool.and_eq_true] at hd
    simp [scanNumber, hd.1, ih hd.2]

theorem scanNumber_noStart {r : List Char} (b : Bool)
    (h : headNumericStart r = false) : scanNumber r b = ([], r) := by
  cases r with
  | nil => rfl
  | cons c cs =>
    simp only [headNumericStart, isNumericStart, Bool.or_eq_false_iff,
      decide_eq_false_iff_not] at h
    simp [scanNumber, h.1, h.2]

theorem nextOk_noStart {r : List Char} (h : nextOk r = true) :
    headNumericStart r = false := by
  cases r with
  | nil => rfl
  | cons c cs =>
    simp only [nextOk, Bool.or_eq_true, decide_eq_true_eq] at h
    rcases h with ((((rfl | rfl) | rfl) | rfl) | rfl) | rfl <;>
      simp [headNumericStart, isNumericStart, isDigit]

theorem all_any_digit {l : List Char} (hne : l ≠ []) (h : l.all isDigit = true) :
    l.any isDigit = true := by
  cases l with
  | nil => exact absurd rfl hne
  | cons c cs =>
    simp only [List.all_cons, Bool.and_eq_true] at h
    simp [h.1]

theorem numlit_head {n : NumLit} (hwf : n.wf = true) :
    headNumericStart n.chars = true := by
  obtain ⟨ip, fp⟩ := n
  simp only [NumLit.wf, Bool.and_eq_true] at hwf
  cases ip with
  | cons c cs =>
    have hc : isDigit c = true := by
      have := hwf.1
      simp only [List.all_cons, Bool.and_eq_true] at this
      exact this.1
    simp [NumLit.chars, headNumericStart, isNumericStart, hc]
  | nil =>
    cases fp with
    | none => simp at hwf
    | some l => simp [NumLit.chars, headNumericStart, isNumericStart]

theorem numlit_chars_ne {n : NumLit} (hwf : n.wf = true) : n.chars ≠ [] := by
  have h := numlit_head hwf
  cases hch : n.chars with
  | nil => rw [hch] at h; simp [headNumericStart] at h
  | cons c cs => simp

theorem parseNumberToken_lit (n : NumLit) (hwf : n.wf = true) (rest : List Char)
    (hr : headNumericStart rest = false) :
    parseNumberToken (n.chars ++ rest) = some (n.val, rest) := by
  obtain ⟨ip, fp⟩ := n
  simp only [NumLit.wf, Bool.and_eq_true] at hwf
  obtain ⟨hip, hfp⟩ := hwf
  cases fp with
  | none =>
    have hne : ip ≠ [] := by
      simp only [Bool.not_eq_eq_eq_not, Bool.not_true, List.isEmpty_eq_false] at hfp
      exact hfp
    have hch : NumLit.chars ⟨ip, none⟩ = ip := by simp [NumLit.chars]
    rw [hch]
    unfold parseNumberToken
    rw [scanNumber_digits hip, scanNumber_noStart false hr]
    simp only [List.append_nil]
    rw [if_pos (all_any_digit hne hip)]
    simp [NumLit.val, hch]
  | some l =>
    have hl : l.all isDigit = true ∧ (!ip.isEmpty || !l.isEmpty) = true := by
      simpa using hfp
    have hch : NumLit.chars ⟨ip, some l⟩ = ip ++ '.' :: l := rfl
    rw [hch]
    unfold parseNumberToken
    have h1 : scanNumber (l ++ rest) true = (l ++ [], rest) := by
      rw [scanNumber_digits hl.1, scanNumber_noStart true hr]
    have h2 : scanNumber ('.' :: (l ++ rest)) false = ('.' :: l, rest) := by
      simp [scanNumber, (by decide : isDigit '.' = false), h1]
    rw [List.append_assoc, List.cons_append, scanNumber_digits hip, h2]
    have hany : ((ip ++ '.' :: l).any isDigit) = true := by
      by_cases hip0 : ip = []
      · subst hip0
        have hlne : l ≠ [] := by
          have := hl.2
          simp only [List.isEmpty_nil, Bool.not_true, Bool.false_or,
            Bool.not_eq_eq_eq_not, List.isEmpty_eq_false] at this
          exact this
        simp [List.any_append, (by decide : isDigit '.' = false),
          all_any_digit hlne hl.1]
      · simp [List.any_append, all_any_digit hip0 hip]
    rw [if_pos hany]
    simp [NumLit.val, hch]

theorem numlit_chars_class {n : NumLit} (hwf : n.wf = true) :
    ∀ c ∈ n.chars, isDigit c = true ∨ c = '.' := by
  obtain ⟨ip, fp⟩ := n
  simp only [NumLit.wf, Bool.and_eq_true] at hwf
  intro c hc
  simp only [NumLit.chars, List.mem_append] at hc
  rcases hc with hc | hc
  · exact Or.inl (by
      have := hwf.1
      rw [List.all_eq_true] at this
      exact this c hc)
  · cases fp with
    | none => simp at hc
    | some l =>
      simp only [List.mem_cons] at hc
      rcases hc with rfl | hc
      · exact Or.inr rfl
      · refine Or.inl ?_
        have := hwf.2
        simp only [Bool.and_eq_true, List.all_eq_true] at this
        exact this.1 c hc

/-- Every character of a printed well-formed tree is a digit or one of
`. + - * / ( )`. -/
theorem print_chars_class (e : Expr) (hwf : e.wf = true) :
    ∀ c ∈ e.print, isDigit c = true ∨ c = '.' ∨ c = '+' ∨ c = '-' ∨ c = '*' ∨
      c = '/' ∨ c = '(' ∨ c = ')' := by
  induction e with
  | num sgn lit =>
    intro c hc
    simp only [Expr.print, List.mem_append] at hc
    rcases hc with hc | hc
    · cases sgn with
      | none => simp [signChars] at hc
      | some b =>
        cases b <;> simp only [signChars, List.mem_singleton] at hc <;> subst hc <;> tauto
    · have hlit : lit.wf = true := by simpa [Expr.wf] using hwf
      rcases numlit_chars_class hlit c hc with h | h <;> tauto
  | add a b iha ihb =>
    intro c hc
    simp only [Expr.wf, Bool.and_eq_true] at hwf
    simp only [Expr.print, List.mem_append, List.mem_cons] at hc
    rcases hc with hc | rfl | hc
    · exact iha hwf.1 c hc
    · tauto
    · exact ihb hwf.2 c hc
  | sub a b iha ihb =>
    intro c hc
    simp only [Expr.wf, Bool.and_eq_true] at hwf
    simp only [Expr.print, List.mem_append, List.mem_cons] at hc
    rcases hc with hc | rfl | hc
    · exact iha hwf.1 c hc
    · tauto
    · exact ihb hwf.2 c hc
  | mul a b iha ihb =>
    intro c hc
    simp only [Expr.wf, Bool.and_eq_true] at hwf
    simp only [Expr.print, List.mem_append, List.mem_cons] at hc
    rcases hc with hc | rfl | hc
    · exact iha hwf.1 c hc
    · tauto
    · exact ihb hwf.2 c hc
  | div a b iha ihb =>
    intro c hc
    simp only [Expr.wf, Bool.and_eq_true] at hwf
    simp only [Expr.print, List.mem_append, List.mem_cons] at hc
    rcases hc with hc | rfl | hc
    · exact iha hwf.1 c hc
    · tauto
    · exact ihb hwf.2 c hc
  | paren e ih =>
    intro c hc
    simp only [Expr.print, List.mem_cons, List.mem_append, List.mem_singleton] at hc
    rcases hc with (rfl | hc) | (rfl | hnil)
    · tauto
    · exact ih (by simpa [Expr.wf] using hwf) c hc
    · tauto
    · simp at hnil

theorem digit_not_jsWs {c : Char} (h : isDigit c = true) : isJsWs c = false := by
  by_contra hs
  rw [Bool.not_eq_false] at hs
  simp only [isJsWs, Bool.or_eq_true, decide_eq_true_eq] at hs
  rcases hs with ((((((rfl | rfl) | rfl) | rfl) | rfl) | rfl) | rfl) | rfl <;>
    exact absurd h (by decide)

theorem print_not_ws (e : Expr) (hwf : e.wf = true) :
    ∀ c ∈ e.print, isJsWs c = false := by
  intro c hc
  rcases print_chars_class e hwf c hc with h | h | h | h | h | h | h | h
  · exact digit_not_jsWs h
  all_goals (subst h; decide)

theorem print_allowed (e : Expr) (hwf : e.wf = true) :
    ∀ c ∈ e.print, allowedChar c = true := by
  intro c hc
  rcases print_chars_class e hwf c hc with h | h | h | h | h | h | h | h
  · simp [allowedChar, h]
  all_goals (subst h; decide)

theorem print_ne (e : Expr) (hwf : e.wf = true) : e.print ≠ [] := by
  cases e with
  | num sgn lit =>
    have hlit : lit.wf = true := by simpa [Expr.wf] using hwf
    simp only [Expr.print, ne_eq, List.append_eq_nil]
    intro h
    exact numlit_chars_ne hlit h.2
  | add a b =>
    simp only [Expr.wf, Bool.and_eq_true] at hwf
    simp only [Expr.print, ne_eq, List.append_eq_nil]
    intro h
    exact absurd h.2 (by simp)
  | sub a b =>
    simp only [Expr.print, ne_eq, List.append_eq_nil]
    intro h
    exact absurd h.2 (by simp)
  | mul a b =>
    simp only [Expr.print, ne_eq, List.append_eq_nil]
    intro h
    exact absurd h.2 (by simp)
  | div a b =>
    simp only [Expr.print, ne_eq, List.append_eq_nil]
    intro h
    exact absurd h.2 (by simp)
  | paren e => simp [Expr.print]

theorem tokens_ne (e : Expr) : e.tokens ≠ [] := by
  cases e <;> simp [Expr.tokens]

theorem rpn_ne (e : Expr) : e.rpn ≠ [] := by
  induction e with
  | num sgn lit => simp [Expr.rpn]
  | add a b iha ihb => simp [Expr.rpn]
  | sub a b iha ihb => simp [Expr.rpn]
  | mul a b iha ihb => simp [Expr.rpn]
  | div a b iha ihb => simp [Expr.rpn]
  | paren e ih => simpa [Expr.rpn] using ih

theorem dropWhile_id {p : Char → Bool} {s : List Char}
    (h : ∀ c ∈ s, p c = false) : s.dropWhile p = s := by
  cases s with
  | nil => rfl
  | cons c cs => simp [List.dropWhile_cons, h c (by simp)]

theorem dropTrailingWs_id {s : List Char} (h : ∀ c ∈ s, isJsWs c = false) :
    dropTrailingWs s = s := by
  induction s with
  | nil => rfl
  | cons c cs ih =>
    have hc := h c (by simp)
    have ih2 := ih (fun x hx => h x (by simp [hx]))
    simp only [dropTrailingWs] at ih2 ⊢
    rw [List.foldr_cons, ih2, hc]
    simp

theorem jsTrim_id {s : List Char} (h : ∀ c ∈ s, isJsWs c = false) :
    jsTrim s = s := by
  unfold jsTrim
  rw [dropWhile_id h, dropTrailingWs_id h]

/-! ## Tokenizer correctness on printed grammar trees -/

theorem numlit_drop_space {n : NumLit} (hwf : n.wf = true) (rest : List Char) :
    (n.chars ++ rest).dropWhile isSpaceChar = n.chars ++ rest := by
  have hh := numlit_head hwf
  cases hch : n.chars with
  | nil => rw [hch] at hh; simp [headNumericStart] at hh
  | cons c cs =>
    rw [hch] at hh
    simp only [headNumericStart] at hh
    simp [List.cons_append, List.dropWhile_cons, numericStart_not_space hh]

/-- Tokenizing the printed form of a well-formed grammar tree from any
unary-context state yields its token sequence, followed by whatever the
continuation tokenizes from the value-context state. -/
theorem tokenize_print (e : Expr) : ∀ rest : List Char, ∀ p : PrevType, ∀ f : Nat,
    e.wf = true → prevUnary p = true → nextOk rest = true →
    (e.print ++ rest).length < f →
    tokenizeAux f (e.print ++ rest) p =
      Option.map (fun ts => e.tokens ++ ts) (tkRun rest PrevType.number) := by
  induction e with
  | num sgn lit =>
    intro rest p f hwf hu hn hf
    have hlit : lit.wf = true := by simpa [Expr.wf] using hwf
    have hpn : parseNumberToken (lit.chars ++ rest) = some (lit.val, rest) :=
      parseNumberToken_lit lit hlit rest (nextOk_noStart hn)
    obtain ⟨c, cs, hch⟩ : ∃ c cs, lit.chars = c :: cs := by
      cases hch : lit.chars with
      | nil => exact absurd hch (numlit_chars_ne hlit)
      | cons c cs => exact ⟨c, cs, rfl⟩
    have hcns : isNumericStart c = true := by
      have := numlit_head hlit
      rw [hch] at this
      simpa [headNumericStart] using this
    cases sgn with
    | none =>
      match f, hf with
      | k + 1, hf =>
        simp only [Expr.print, signChars, List.nil_append] at hf ⊢
        rw [hch, List.cons_append] at hf hpn ⊢
        rw [tok_num hcns hpn]
        have hrl : rest.length < k := by
          simp only [List.length_cons, List.length_append] at hf
          omega
        rw [tokenizeAux_fuel k rest (rest.length + 1) PrevType.number hrl
          (Nat.lt_succ_self _)]
        rw [show tokenizeAux (rest.length + 1) rest PrevType.number =
          tkRun rest PrevType.number from rfl]
        show _ = Option.map (fun ts => [Token.number (signedVal none lit)] ++ ts)
          (tkRun rest PrevType.number)
        cases htk : tkRun rest PrevType.number <;> simp [signedVal, htk]
    | some b =>
      have hds : (lit.chars ++ rest).dropWhile isSpaceChar = lit.chars ++ rest :=
        numlit_drop_space hlit rest
      match f, hf with
      | k + 1, hf =>
        have hsc : signChars (some b) = [if b then '-' else '+'] := by cases b <;> rfl
        simp only [Expr.print, hsc, List.cons_append, List.nil_append] at hf ⊢
        have hrl : rest.length < k := by
          simp only [List.length_cons, List.length_append] at hf
          have := List.length_pos_of_ne_nil (numlit_chars_ne hlit)
          omega
        rw [tok_sign_fold (if b then '-' else '+')
          (by cases b <;> simp) hu (by rw [hds]; exact hpn)]
        rw [tokenizeAux_fuel k rest (rest.length + 1) PrevType.number hrl
          (Nat.lt_succ_self _)]
        rw [show tokenizeAux (rest.length + 1) rest PrevType.number =
          tkRun rest PrevType.number from rfl]
        show _ = Option.map (fun ts => [Token.number (signedVal (some b) lit)] ++ ts)
          (tkRun rest PrevType.number)
        cases b <;> cases htk : tkRun rest PrevType.number <;> simp [signedVal, htk]
  | paren e ih =>
    intro rest p f hwf hu hn hf
    have hwe : e.wf = true := by simpa [Expr.wf] using hwf
    match f, hf with
    | k + 1, hf =>
      simp only [Expr.print, List.cons_append, List.append_assoc, List.nil_append] at hf ⊢
      rw [tok_open]
      have hfe : (e.print ++ (')' :: rest)).length < k := by
        simp only [List.length_cons, List.length_append] at hf ⊢
        omega
      rw [ih (')' :: rest) PrevType.open_paren k hwe rfl (by simp [nextOk]) hfe]
      have hclose : tkRun (')' :: rest) PrevType.number =
          Option.map (fun ts => Token.closeParen :: ts) (tkRun rest PrevType.number) := by
        show tokenizeAux (rest.length + 1 + 1) (')' :: rest) PrevType.number = _
        rw [tok_close (show prevUnary PrevType.number = false from rfl)]
        rw [tokenizeAux_prev (p := PrevType.close_paren) (q := PrevType.number) rfl]
        rfl
      rw [hclose]
      show _ = Option.map (fun ts => (Token.openParen :: e.tokens ++ [Token.closeParen]) ++ ts)
        (tkRun rest PrevType.number)
      cases htk : tkRun rest PrevType.number <;> simp [htk]
  | add a b iha ihb =>
    intro rest p f hwf hu hn hf
    simp only [Expr.wf, Bool.and_eq_true] at hwf
    simp only [Expr.print, List.append_assoc, List.cons_append] at hf ⊢
    rw [iha ('+' :: (b.print ++ rest)) p f hwf.1 hu (by simp [nextOk]) hf]
    have hstep : tkRun ('+' :: (b.print ++ rest)) PrevType.number =
        Option.map (fun ts => (Token.operator Op.add :: b.tokens) ++ ts)
          (tkRun rest PrevType.number) := by
      show tokenizeAux ((b.print ++ rest).length + 1 + 1) ('+' :: (b.print ++ rest))
        PrevType.number = _
      rw [tok_sign_binary '+' (Or.inl rfl) (show prevUnary PrevType.number = false from rfl)]
      rw [ihb rest PrevType.operator ((b.print ++ rest).length + 1) hwf.2 rfl hn
        (Nat.lt_succ_self _)]
      cases htk : tkRun rest PrevType.number <;> simp [htk]
    rw [hstep]
    show _ = Option.map (fun ts => (a.tokens ++ Token.operator Op.add :: b.tokens) ++ ts)
      (tkRun rest PrevType.number)
    cases htk : tkRun rest PrevType.number <;> simp [htk]
  | sub a b iha ihb =>
    intro rest p f hwf hu hn hf
    simp only [Expr.wf, Bool.and_eq_true] at hwf
    simp only [Expr.print, List.append_assoc, List.cons_append] at hf ⊢
    rw [iha ('-' :: (b.print ++ rest)) p f hwf.1 hu (by simp [nextOk]) hf]
    have hstep : tkRun ('-' :: (b.print ++ rest)) PrevType.number =
        Option.map (fun ts => (Token.operator Op.sub :: b.tokens) ++ ts)
          (tkRun rest PrevType.number) := by
      show tokenizeAux ((b.print ++ rest).length + 1 + 1) ('-' :: (b.print ++ rest))
        PrevType.number = _
      rw [tok_sign_binary '-' (Or.inr rfl) (show prevUnary PrevType.number = false from rfl)]
      rw [ihb rest PrevType.operator ((b.print ++ rest).length + 1) hwf.2 rfl hn
        (Nat.lt_succ_self _)]
      cases htk : tkRun rest PrevType.number <;> simp [htk]
    rw [hstep]
    show _ = Option.map (fun ts => (a.tokens ++ Token.operator Op.sub :: b.tokens) ++ ts)
      (tkRun rest PrevType.number)
    cases htk : tkRun rest PrevType.number <;> simp [htk]
  | mul a b iha ihb =>
    intro rest p f hwf hu hn hf
    simp only [Expr.wf, Bool.and_eq_true] at hwf
    simp only [Expr.print, List.append_assoc, List.cons_append] at hf ⊢
    rw [iha ('*' :: (b.print ++ rest)) p f hwf.1 hu (by simp [nextOk]) hf]
    have hstep : tkRun ('*' :: (b.print ++ rest)) PrevType.number =
        Option.map (fun ts => (Token.operator Op.mul :: b.tokens) ++ ts)
          (tkRun rest PrevType.number) := by
      show tokenizeAux ((b.print ++ rest).length + 1 + 1) ('*' :: (b.print ++ rest))
        PrevType.number = _
      rw [tok_muldiv '*' (Or.inl rfl) (show prevUnary PrevType.number = false from rfl)]
      rw [ihb rest PrevType.operator ((b.print ++ rest).length + 1) hwf.2 rfl hn
        (Nat.lt_succ_self _)]
      cases htk : tkRun rest PrevType.number <;> simp [htk]
    rw [hstep]
    show _ = Option.map (fun ts => (a.tokens ++ Token.operator Op.mul :: b.tokens) ++ ts)
      (tkRun rest PrevType.number)
    cases htk : tkRun rest PrevType.number <;> simp [htk]
  | div a b iha ihb =>
    intro rest p f hwf hu hn hf
    simp only [Expr.wf, Bool.and_eq_true] at hwf
    simp only [Expr.print, List.append_assoc, List.cons_append] at hf ⊢
    rw [iha ('/' :: (b.print ++ rest)) p f hwf.1 hu (by simp [nextOk]) hf]
    have hstep : tkRun ('/' :: (b.print ++ rest)) PrevType.number =
        Option.map (fun ts => (Token.operator Op.div :: b.tokens) ++ ts)
          (tkRun rest PrevType.number) := by
      show tokenizeAux ((b.print ++ rest).length + 1 + 1) ('/' :: (b.print ++ rest))
        PrevType.number = _
      rw [tok_muldiv '/' (Or.inr rfl) (show prevUnary PrevType.number = false from rfl)]
      rw [ihb rest PrevType.operator ((b.print ++ rest).length + 1) hwf.2 rfl hn
        (Nat.lt_succ_self _)]
      cases htk : tkRun rest PrevType.number <;> simp [htk]
    rw [hstep]
    show _ = Option.map (fun ts => (a.tokens ++ Token.operator Op.div :: b.tokens) ++ ts)
      (tkRun rest PrevType.number)
    cases htk : tkRun rest PrevType.number <;> simp [htk]

/-- End-to-end correctness of the evaluator on printed grammar trees:
trimming, the allowed-character gate, tokenizing, the shunting yard and the
stack evaluation together compute exactly the reference value. -/
theorem evaluateExpression_print (e : Expr) (hwf : e.wf = true)
    (hl : e.levelOk 0 = true) : evaluateExpressionL e.print = e.refEval := by
  have hnws := print_not_ws e hwf
  have htrim : jsTrim e.print = e.print := jsTrim_id hnws
  have hne : e.print ≠ [] := print_ne e hwf
  have hie : e.print.isEmpty = false := by
    cases hpe : e.print with
    | nil => exact absurd hpe hne
    | cons c cs => rfl
  have hall : allowedTest e.print = true := by
    simp only [allowedTest, Bool.and_eq_true, Bool.not_eq_eq_eq_not, Bool.not_false]
    exact ⟨hie, by rw [List.all_eq_true]; exact print_allowed e hwf⟩
  have htk : tokenizeExpression e.print = some e.tokens := by
    unfold tokenizeExpression
    rw [show tkRun e.print PrevType.start =
      tokenizeAux (e.print.length + 1) e.print PrevType.start from rfl]
    have hstep := tokenize_print e [] PrevType.start (e.print.length + 1) hwf rfl rfl
      (by simp)
    rw [List.append_nil] at hstep
    rw [hstep]
    simp [tkRun, tokenizeAux]
  have hte : e.tokens.isEmpty = false := by
    cases ht : e.tokens with
    | nil => exact absurd ht (tokens_ne e)
    | cons t ts => rfl
  have hrpn : toRpn e.tokens = some e.rpn := by
    unfold toRpn
    rw [toRpnAux_shunt]
    have hstep := shunt_tokens e 0 [] [] hl ⟨rfl, rfl⟩
    rw [List.append_nil] at hstep
    rw [hstep]
    simp [shunt, popAll]
  have hre : e.rpn.isEmpty = false := by
    cases hr : e.rpn with
    | nil => exact absurd hr (rpn_ne e)
    | cons t ts => rfl
  have heval : evaluateRpn e.rpn = e.refEval := by
    unfold evaluateRpn
    have hstep := evalRpn_tokens e [] []
    rw [List.append_nil] at hstep
    rw [hstep]
    cases e.refEval <;> simp [evalRpnAux]
  unfold evaluateExpressionL
  rw [htrim]
  simp only [hie, Bool.false_eq_true, if_false, hall, Bool.not_true, htk, hte, hrpn, hre]
  exact heval

/-! ## Claim theorems -/

/-- C1, counterexample to the claim as stated: `"2*-(3+4)"` is built from
the claim's grammar (decimal literals, binary `*`, parentheses, unary
sign), yet `evaluateExpression` returns `-7` — the `0 -` rewrite of the
unary minus before `(` is inserted at additive precedence — while the
standard evaluation in which the parenthesized subexpression is evaluated
first gives `2 * -(3+4) = -14 ≠ -7`. -/
theorem C1_counterexample :
    evaluateExpression "2*-(3+4)" = some (-7) ∧
    (2 : ℚ) * -(3 + 4) = -14 ∧ ((-7 : ℚ) ≠ -14) := by
  refine ⟨by decide, by norm_num, by norm_num⟩

/-- C1 (amended): for every expression string built from the grammar in
which a unary sign is folded into the immediately following decimal
literal (a unary sign applied directly to a parenthesized subexpression is
excluded), `evaluateExpression` returns the value of the reference
evaluator — `*`/`/` binding tighter than `+`/`-`, both levels
left-associative, parenthesized subexpressions evaluated first — and in
particular `2+3*4 = 14`, `(2+3)*4 = 20`, `8-3-2 = 3`. -/
theorem C1_grammar_eval :
    (∀ e : Expr, e.wf = true → e.levelOk 0 = true →
      evaluateExpression e.printStr = e.refEval) ∧
    evaluateExpression "2+3*4" = some 14 ∧
    evaluateExpression "(2+3)*4" = some 20 ∧
    evaluateExpression "8-3-2" = some 3 := by
  refine ⟨?_, by decide, by decide, by decide⟩
  intro e hwf hl
  show evaluateExpressionL (String.mk e.print).data = e.refEval
  exact evaluateExpression_print e hwf hl

/-- Witness for C1: the tree of `"2+3*4"` satisfies the hypotheses and the
theorem computes its value `14`. -/
theorem C1_grammar_eval_witness :
    evaluateExpression (Expr.printStr (Expr.add (Expr.num none ⟨['2'], none⟩)
        (Expr.mul (Expr.num none ⟨['3'], none⟩) (Expr.num none ⟨['4'], none⟩)))) =
      Expr.refEval (Expr.add (Expr.num none ⟨['2'], none⟩)
        (Expr.mul (Expr.num none ⟨['3'], none⟩) (Expr.num none ⟨['4'], none⟩))) ∧
    Expr.refEval (Expr.add (Expr.num none ⟨['2'], none⟩)
        (Expr.mul (Expr.num none ⟨['3'], none⟩) (Expr.num none ⟨['4'], none⟩))) =
      some 14 :=
  ⟨C1_grammar_eval.1 _ (by decide) (by decide), by decide⟩

/-- C3: a division step whose right operand (the first value popped) is
exactly zero makes the whole evaluation return the invalid sentinel —
the model has no infinities at all — and `evaluateExpression "5/0"` is the
sentinel. -/
theorem C3_div_zero :
    (∀ ts : List Token, ∀ tl : List ℚ,
      evalRpnAux (Token.operator Op.div :: ts) (0 :: tl) = none) ∧
    evaluateExpression "5/0" = none := by
  refine ⟨?_, by decide⟩
  intro ts tl
  cases tl <;> simp [evalRpnAux]

theorem mem_dropWhile {p : Char → Bool} {c : Char} (hc : p c = false) :
    ∀ {s : List Char}, c ∈ s → c ∈ s.dropWhile p := by
  intro s
  induction s with
  | nil => simp
  | cons a as ih =>
    intro hm
    by_cases ha : p a
    · simp only [List.dropWhile_cons, ha, if_true]
      rcases List.mem_cons.mp hm with rfl | hm2
      · rw [hc] at ha
        exact absurd ha (by simp)
      · exact ih hm2
    · simpa [List.dropWhile_cons, ha] using hm

theorem mem_dropTrailingWs {c : Char} (hc : isJsWs c = false) :
    ∀ {s : List Char}, c ∈ s → c ∈ dropTrailingWs s := by
  intro s
  induction s with
  | nil => simp
  | cons a as ih =>
    intro hm
    rcases List.mem_cons.mp hm with rfl | hm2
    · simp only [dropTrailingWs, List.foldr_cons, hc, Bool.and_false, Bool.false_eq_true,
        if_false]
      exact List.mem_cons_self c _
    · have hin := ih hm2
      have hne : (dropTrailingWs as).isEmpty = false := by
        cases hdt : dropTrailingWs as with
        | nil => rw [hdt] at hin; simp at hin
        | cons x xs => rfl
      simp only [dropTrailingWs, List.foldr_cons] at hne hin ⊢
      rw [hne]
      simp only [Bool.false_and, Bool.false_eq_true, if_false]
      exact List.mem_cons_of_mem a hin

theorem mem_jsTrim {c : Char} {s : List Char} (hm : c ∈ s) (hc : isJsWs c = false) :
    c ∈ jsTrim s :=
  mem_dropTrailingWs hc (mem_dropWhile hc hm)

/-- C4: the evaluator is a total function into `Option ℚ` (the model has no
exceptions to raise); every string containing a character outside
`{0-9, ., +, -, *, /, (, ), whitespace}` yields the sentinel, as do the
unbalanced-paren input `"(2+3"`, the trailing-operator input `"2+"`, the
empty string, and `"2a"`. -/
theorem C4_totality :
    (∀ s : List Char, (∃ c ∈ s, allowedChar c = false) → evaluateExpressionL s = none) ∧
    evaluateExpression "(2+3" = none ∧ evaluateExpression "2+" = none ∧
    evaluateExpression "" = none ∧ evaluateExpression "2a" = none := by
  refine ⟨?_, by decide, by decide, by decide, by decide⟩
  rintro s ⟨c, hc, hbad⟩
  have hws : isJsWs c = false := by
    by_contra h
    rw [Bool.not_eq_false] at h
    simp [allowedChar, h] at hbad
  have hmem : c ∈ jsTrim s := mem_jsTrim hc hws
  by_cases hie : (jsTrim s).isEmpty
  · simp [evaluateExpressionL, hie]
  · have hallf : (jsTrim s).all allowedChar = false := by
      by_contra h
      rw [Bool.not_eq_false, List.all_eq_true] at h
      exact absurd (h c hmem) (by simp [hbad])
    simp [evaluateExpressionL, hie, allowedTest, hallf]

/-- Witness for C4: `"2a"` contains the disallowed character `'a'` and
evaluates to the sentinel through the theorem. -/
theorem C4_totality_witness :
    (∃ c ∈ ("2a" : String).data, allowedChar c = false) ∧
    evaluateExpressionL ("2a" : String).data = none :=
  ⟨by decide, C4_totality.1 _ (by decide)⟩

/-- C5: a `+`/`-` in unary position (at the start, after an operator, or
after an open parenthesis) whose lookahead reaches a numeric start is
folded into the following literal as a sign; a unary `-` whose lookahead
reaches `(` is rewritten into the two tokens `Number(0)`, `Operator(-)`;
hence `-5+2 = -3` and `-(2+3) = -5`. -/
theorem C5_unary_sign :
    (∀ (c : Char) (cs : List Char) (p : PrevType) (v : ℚ) (rest : List Char),
      (c = '+' ∨ c = '-') → prevUnary p = true →
      parseNumberToken (cs.dropWhile isSpaceChar) = some (v, rest) →
      tkRun (c :: cs) p =
        Option.map (fun ts => Token.number (if c = '-' then -v else v) :: ts)
          (tkRun rest PrevType.number)) ∧
    (∀ (cs : List Char) (p : PrevType),
      prevUnary p = true →
      headNumericStart (cs.dropWhile isSpaceChar) = false →
      (cs.dropWhile isSpaceChar).head? = some '(' →
      tkRun ('-' :: cs) p =
        Option.map (fun ts => Token.number 0 :: Token.operator Op.sub :: ts)
          (tkRun cs PrevType.operator)) ∧
    evaluateExpression "-5+2" = some (-3) ∧
    evaluateExpression "-(2+3)" = some (-5) := by
  refine ⟨?_, ?_, by decide, by decide⟩
  · intro c cs p v rest hc hu hp
    show tokenizeAux (cs.length + 1 + 1) (c :: cs) p = _
    rw [tok_sign_fold c hc hu hp]
    have hr : rest.length ≤ cs.length :=
      le_trans (parseNumberToken_rest_le hp) (dropWhile_length_le isSpaceChar cs)
    rw [tokenizeAux_fuel (cs.length + 1) rest (rest.length + 1) PrevType.number
      (by omega) (Nat.lt_succ_self _)]
    rfl
  · intro cs p hu hh hl
    show tokenizeAux (cs.length + 1 + 1) ('-' :: cs) p = _
    rw [tok_minus_paren hu hh hl]
    rfl

/-- Witness for C5: the fold applies to `"-5"` from the start state, and
the rewrite applies to `"-("`. -/
theorem C5_unary_sign_witness :
    tkRun ['-', '5'] PrevType.start =
      Option.map (fun ts => Token.number (-(5 : ℚ)) :: ts) (tkRun [] PrevType.number) ∧
    tkRun ['-', '('] PrevType.start =
      Option.map (fun ts => Token.number 0 :: Token.operator Op.sub :: ts)
        (tkRun ['('] PrevType.operator) := by
  constructor
  · have h := C5_unary_sign.1 '-' ['5'] PrevType.start 5 [] (Or.inr rfl) rfl (by decide)
    simpa using h
  · exact C5_unary_sign.2.1 ['('] PrevType.start rfl (by decide) (by decide)

/-- C9: a unary `+` whose lookahead does not reach a numeric start is
consumed without producing a token, so `"+(2+3)"` tokenizes exactly like
`"(2+3)"` and evaluates to `5`, while `"+"` tokenizes to the empty token
list and `evaluateExpression "+"` is the sentinel. -/
theorem C9_unary_plus :
    (∀ (cs : List Char) (p : PrevType),
      prevUnary p = true → headNumericStart (cs.dropWhile isSpaceChar) = false →
      tkRun ('+' :: cs) p = tkRun cs PrevType.operator) ∧
    tokenizeExpression ("+(2+3)" : String).data =
      some [Token.openParen, Token.number 2, Token.operator Op.add, Token.number 3,
        Token.closeParen] ∧
    evaluateExpression "+(2+3)" = some 5 ∧
    tokenizeExpression ("+" : String).data = some [] ∧
    evaluateExpression "+" = none := by
  refine ⟨?_, by decide, by decide, by decide, by decide⟩
  intro cs p hu hh
  show tokenizeAux (cs.length + 1 + 1) ('+' :: cs) p = _
  rw [tok_plus_skip hu hh]
  rfl

/-- Witness for C9: the discard equation applies to `"+("` from the start
state. -/
theorem C9_unary_plus_witness :
    tkRun ['+', '('] PrevType.start = tkRun ['('] PrevType.operator :=
  C9_unary_plus.1 ['('] PrevType.start rfl (by decide)

/-- C10: the non-expression fallback of `parseValue` accepts every numeric
syntax of the host's string-to-number coercion, not only plain decimals:
the hexadecimal literal `"0x10"` gives `16` and the scientific-notation
literal `"1e3"` gives `1000`, both bypassing the expression extractor. -/
theorem C10_host_numeric_syntax :
    parseValue "0x10" = some 16 ∧ parseValue "1e3" = some 1000 ∧
    extractExpression "0x10" = none ∧ extractExpression "1e3" = none ∧
    jsNumber ("0x10" : String).data = some 16 ∧
    jsNumber ("1e3" : String).data = some 1000 := by
  refine ⟨by decide, by decide, by decide, by decide, by decide, by decide⟩

/-- C7: resolving a field whose value is not recognized as an expression
(in particular an already-plain numeric string) leaves the field unchanged
and dispatches no events; and whenever the events are dispatched, the
stored value has actually changed. -/
theorem C7_resolve_frame :
    (∀ (f : NumericField) (opts : Option Bool),
      extractExpressionL f.value = none → resolveField f opts = (f, false)) ∧
    (∀ (f : NumericField) (opts : Option Bool) (g : NumericField),
      resolveField f opts = (g, true) → g.value ≠ f.value) := by
  constructor
  · intro f opts h
    simp [resolveField, h]
  · intro f opts g h
    simp only [resolveField] at h
    cases hx : extractExpressionL f.value with
    | none =>
      simp only [hx] at h
      simp at h
    | some expr =>
      simp only [hx] at h
      cases he : evaluateExpressionL expr with
      | none =>
        simp only [he] at h
        simp at h
      | some result =>
        simp only [he] at h
        by_cases hfm : formatResolvedValue f result = f.value
        · rw [if_pos hfm] at h
          simp at h
        · rw [if_neg hfm] at h
          by_cases hd : opts ≠ some false
          · rw [if_pos hd] at h
            have h1 := congrArg Prod.fst h
            simp only at h1
            rw [← h1]
            exact hfm
          · rw [if_neg hd] at h
            simp at h

/-- Witness for C7: `"12.5"` is not recognized as an expression and
resolves to itself without events; `"=10/(2+3)"` resolves with events to
the different value `"2"`. -/
theorem C7_resolve_frame_witness :
    resolveField { value := ("12.5" : String).data, step := none } none =
      ({ value := ("12.5" : String).data, step := none }, false) ∧
    ({ value := ("2" : String).data, step := none } : NumericField).value ≠
      ("=10/(2+3)" : String).data := by
  constructor
  · exact C7_resolve_frame.1 _ none (by decide)
  · exact C7_resolve_frame.2 _ none _
      (by decide :
        resolveField { value := ("=10/(2+3)" : String).data, step := none } none =
          ({ value := ("2" : String).data, step := none }, true))

theorem space_allowed {c : Char} (h : isSpaceChar c = true) : allowedChar c = true := by
  simp only [isSpaceChar, Bool.or_eq_true, decide_eq_true_eq] at h
  rcases h with ((rfl | rfl) | rfl) | rfl <;> decide

theorem scanNumber_fst_class (s : List Char) (b : Bool) :
    ∀ c ∈ (scanNumber s b).1, isDigit c = true ∨ c = '.' := by
  induction s generalizing b with
  | nil => simp [scanNumber]
  | cons a as ih =>
    intro c hc
    simp only [scanNumber] at hc
    by_cases hd : isDigit a
    · simp only [hd, if_true] at hc
      rcases List.mem_cons.mp hc with rfl | hc2
      · exact Or.inl hd
      · exact ih b c hc2
    · by_cases ha : a = '.'
      · subst ha
        simp only [hd, Bool.false_eq_true, if_false, if_pos rfl] at hc
        cases b with
        | true => simp at hc
        | false =>
          simp only [Bool.false_eq_true, if_false] at hc
          rcases List.mem_cons.mp hc with rfl | hc2
          · exact Or.inr rfl
          · exact ih true c hc2
      · simp [hd, ha] at hc

theorem digitOrDot_allowed {c : Char} (h : isDigit c = true ∨ c = '.') :
    allowedChar c = true := by
  rcases h with h | rfl
  · simp [allowedChar, h]
  · decide

/-- Every character of an input the tokenizer accepts is in the allowed
class of `EXPRESSION_ALLOWED_RE`. -/
theorem tokenizeAux_allowed :
    ∀ f : Nat, ∀ s : List Char, ∀ p : PrevType, ∀ ts : List Token,
      tokenizeAux f s p = some ts → ∀ c ∈ s, allowedChar c = true := by
  intro f
  induction f with
  | zero => intro s p ts h; simp [tokenizeAux] at h
  | succ n ih =>
    intro s p ts h c hc
    match s with
    | [] => simp at hc
    | a :: as =>
      rw [show tokenizeAux (n + 1) (a :: as) p = tokenizeAux (n + 1) (a :: as) p from rfl] at h
      by_cases hws : isSpaceChar a
      · rw [tok_ws hws] at h
        rcases List.mem_cons.mp hc with rfl | hc2
        · exact space_allowed hws
        · exact ih as p ts h c hc2
      · by_cases hns : isNumericStart a
        · cases hp : parseNumberToken (a :: as) with
          | none => simp [tokenizeAux, hws, hns, hp] at h
          | some pr =>
            obtain ⟨v, rest⟩ := pr
            rw [tok_num hns hp] at h
            have hsplit : (scanNumber (a :: as) false).1 ++ rest = a :: as := by
              have := scanNumber_append (a :: as) false
              unfold parseNumberToken at hp
              by_cases hany : (scanNumber (a :: as) false).1.any isDigit
              · simp only [hany, if_true, Option.some.injEq, Prod.mk.injEq] at hp
                rw [hp.2] at this
                exact this
              · simp [hany] at hp
            rw [← hsplit] at hc
            rcases List.mem_append.mp hc with hc1 | hc2
            · exact digitOrDot_allowed (scanNumber_fst_class (a :: as) false c hc1)
            · cases hres : tokenizeAux n rest PrevType.number with
              | none => rw [hres] at h; simp at h
              | some ts2 => exact ih rest PrevType.number ts2 hres c hc2
        · by_cases hpm : a = '+' ∨ a = '-'
          · by_cases hu : prevUnary p = true
            · by_cases hh : headNumericStart (as.dropWhile isSpaceChar) = true
              · cases hp : parseNumberToken (as.dropWhile isSpaceChar) with
                | none =>
                  rcases hpm with rfl | rfl <;>
                    simp [tokenizeAux, isSpaceChar, isNumericStart, isDigit, hu, hh, hp] at h
                | some pr =>
                  obtain ⟨v, rest⟩ := pr
                  rw [tok_sign_fold a hpm hu hp] at h
                  rcases List.mem_cons.mp hc with rfl | hc2
                  · rcases hpm with rfl | rfl <;> decide
                  · have hsplit : (scanNumber (as.dropWhile isSpaceChar) false).1 ++ rest =
                        as.dropWhile isSpaceChar := by
                      have := scanNumber_append (as.dropWhile isSpaceChar) false
                      unfold parseNumberToken at hp
                      by_cases hany : (scanNumber (as.dropWhile isSpaceChar) false).1.any isDigit
                      · simp only [hany, if_true, Option.some.injEq, Prod.mk.injEq] at hp
                        rw [hp.2] at this
                        exact this
                      · simp [hany] at hp
                    have hcs : as.takeWhile isSpaceChar ++ as.dropWhile isSpaceChar = as :=
                      List.takeWhile_append_dropWhile isSpaceChar as
                    rw [← hcs] at hc2
                    rcases List.mem_append.mp hc2 with hc3 | hc3
                    · exact space_allowed (List.mem_takeWhile_imp hc3)
                    · rw [← hsplit] at hc3
                      rcases List.mem_append.mp hc3 with hc4 | hc4
                      · exact digitOrDot_allowed
                          (scanNumber_fst_class (as.dropWhile isSpaceChar) false c hc4)
                      · cases hres : tokenizeAux n rest PrevType.number with
                        | none => rw [hres] at h; simp at h
                        | some ts2 => exact ih rest PrevType.number ts2 hres c hc4
              · rw [Bool.not_eq_true] at hh
                by_cases hplus : a = '+'
                · subst hplus
                  rw [tok_plus_skip hu hh] at h
                  rcases List.mem_cons.mp hc with rfl | hc2
                  · decide
                  · exact ih as PrevType.operator ts h c hc2
                · have hminus : a = '-' := by tauto
                  subst hminus
                  by_cases hl : (as.dropWhile isSpaceChar).head? = some '('
                  · rw [tok_minus_paren hu hh hl] at h
                    rcases List.mem_cons.mp hc with rfl | hc2
                    · decide
                    · cases hres : tokenizeAux n as PrevType.operator with
                      | none => rw [hres] at h; simp at h
                      | some ts2 => exact ih as PrevType.operator ts2 hres c hc2
                  · rw [tok_sign_dead hu hh hl] at h
                    simp at h
            · rw [Bool.not_eq_true] at hu
              rw [tok_sign_binary a hpm hu] at h
              rcases List.mem_cons.mp hc with rfl | hc2
              · rcases hpm with rfl | rfl <;> decide
              · cases hres : tokenizeAux n as PrevType.operator with
                | none => rw [hres] at h; simp at h
                | some ts2 => exact ih as PrevType.operator ts2 hres c hc2
          · by_cases hmd : a = '*' ∨ a = '/'
            · by_cases hu : prevUnary p = true
              · rcases hmd with rfl | rfl <;>
                  simp [tokenizeAux, isSpaceChar, isNumericStart, isDigit, hu] at h
              · rw [Bool.not_eq_true] at hu
                rw [tok_muldiv a hmd hu] at h
                rcases List.mem_cons.mp hc with rfl | hc2
                · rcases hmd with rfl | rfl <;> decide
                · cases hres : tokenizeAux n as PrevType.operator with
                  | none => rw [hres] at h; simp at h
                  | some ts2 => exact ih as PrevType.operator ts2 hres c hc2
            · by_cases hop : a = '('
              · subst hop
                rw [tok_open] at h
                rcases List.mem_cons.mp hc with rfl | hc2
                · decide
                · cases hres : tokenizeAux n as PrevType.open_paren with
                  | none => rw [hres] at h; simp at h
                  | some ts2 => exact ih as PrevType.open_paren ts2 hres c hc2
              · by_cases hcp : a = ')'
                · subst hcp
                  by_cases hu : prevUnary p = true
                  · simp [tokenizeAux, isSpaceChar, isNumericStart, isDigit, hu] at h
                  · rw [Bool.not_eq_true] at hu
                    rw [tok_close hu] at h
                    rcases List.mem_cons.mp hc with rfl | hc2
                    · decide
                    · cases hres : tokenizeAux n as PrevType.close_paren with
                      | none => rw [hres] at h; simp at h
                      | some ts2 => exact ih as PrevType.close_paren ts2 hres c hc2
                · exfalso
                  have hdead : tokenizeAux (n + 1) (a :: as) p = none := by
                    have h1 : (a = '+' || a = '-') = false := by
                      simp only [Bool.or_eq_false_iff, decide_eq_false_iff_not]
                      tauto
                    have h2 : (a = '*' || a = '/') = false := by
                      simp only [Bool.or_eq_false_iff, decide_eq_false_iff_not]
                      tauto
                    simp [tokenizeAux, hws, hns, h1, h2, hop, hcp]
                  rw [hdead] at h
                  exact Option.noConfusion h

/-- C8: the tokenizer accepts two adjacent number literals with no operator
between them (`"2 3"`, and `"1.2.3"` which scans as the literals `1.2` and
`.3`), and every input that tokenizes to exactly two number literals
evaluates to the invalid sentinel because the final one-value stack check
of the RPN evaluator rejects the two-value stack — the defensive check is
reachable from tokenizer-accepted inputs. -/
theorem C8_adjacent_literals :
    tokenizeExpression ("2 3" : String).data = some [Token.number 2, Token.number 3] ∧
    tokenizeExpression ("1.2.3" : String).data =
      some [Token.number (6 / 5), Token.number (3 / 10)] ∧
    (∀ s : List Char, ∀ a b : ℚ, jsTrim s = s →
      tokenizeExpression s = some [Token.number a, Token.number b] →
      toRpn [Token.number a, Token.number b] = some [Token.number a, Token.number b] ∧
      evaluateRpn [Token.number a, Token.number b] = none ∧
      evaluateExpressionL s = none) ∧
    evaluateExpression "2 3" = none ∧ evaluateExpression "1.2.3" = none := by
  refine ⟨by decide, by decide, ?_, by decide, by decide⟩
  intro s a b htrim htok
  have hne : s ≠ [] := by
    rintro rfl
    simp [tokenizeExpression, tkRun, tokenizeAux] at htok
  have hie : s.isEmpty = false := by
    cases hpe : s with
    | nil => exact absurd hpe hne
    | cons x xs => rfl
  have hall : allowedTest s = true := by
    simp only [allowedTest, Bool.and_eq_true, Bool.not_eq_eq_eq_not, Bool.not_false]
    refine ⟨hie, ?_⟩
    rw [List.all_eq_true]
    exact tokenizeAux_allowed (s.length + 1) s PrevType.start _ htok
  refine ⟨rfl, rfl, ?_⟩
  unfold evaluateExpressionL
  rw [htrim]
  simp only [hie, Bool.false_eq_true, if_false, hall, Bool.not_true, htok]
  rfl

/-- Witness for C8: the input `"2 3"` is trimmed, tokenizes to the two
literals `2` and `3`, and the theorem yields the sentinel through the
final stack check. -/
theorem C8_adjacent_literals_witness :
    toRpn [Token.number 2, Token.number 3] = some [Token.number 2, Token.number 3] ∧
    evaluateRpn [Token.number 2, Token.number 3] = none ∧
    evaluateExpressionL ("2 3" : String).data = none :=
  C8_adjacent_literals.2.2.1 ("2 3" : String).data 2 3 (by decide) (by decide)

/-! ## Trim idempotence and `Number` coercion lemmas -/

theorem dropWhile_head_neg {p : Char → Bool} :
    ∀ {s : List Char} {d : Char} {ds : List Char}, s.dropWhile p = d :: ds → p d = false := by
  intro s
  induction s with
  | nil => intro d ds h; simp at h
  | cons c cs ih =>
    intro d ds h
    by_cases hc : p c
    · rw [List.dropWhile_cons, if_pos hc] at h
      exact ih h
    · rw [List.dropWhile_cons, if_neg hc] at h
      obtain ⟨rfl, -⟩ := List.cons.injEq .. ▸ h
      exact Bool.not_eq_true _ ▸ hc

theorem dropWhile_idem (p : Char → Bool) (s : List Char) :
    (s.dropWhile p).dropWhile p = s.dropWhile p := by
  cases hd : s.dropWhile p with
  | nil => rfl
  | cons d ds =>
    rw [List.dropWhile_cons, if_neg]
    rw [dropWhile_head_neg hd]
    simp

theorem dropTrailingWs_idem (s : List Char) :
    dropTrailingWs (dropTrailingWs s) = dropTrailingWs s := by
  induction s with
  | nil => rfl
  | cons c cs ih =>
    have hstep : dropTrailingWs (c :: cs) =
        if (dropTrailingWs cs).isEmpty && isJsWs c then [] else c :: dropTrailingWs cs := rfl
    rw [hstep]
    by_cases hcond : ((dropTrailingWs cs).isEmpty && isJsWs c) = true
    · rw [if_pos hcond]
      rfl
    · rw [if_neg hcond]
      have hstep2 : dropTrailingWs (c :: dropTrailingWs cs) =
          if (dropTrailingWs (dropTrailingWs cs)).isEmpty && isJsWs c then []
          else c :: dropTrailingWs (dropTrailingWs cs) := rfl
      rw [hstep2, ih, if_neg hcond]

theorem dropTrailingWs_head (s : List Char) :
    dropTrailingWs s = [] ∨ (dropTrailingWs s).head? = s.head? := by
  cases s with
  | nil => exact Or.inl rfl
  | cons c cs =>
    show (if (dropTrailingWs cs).isEmpty && isJsWs c then [] else c :: dropTrailingWs cs) = []
      ∨ _
    by_cases hcond : ((dropTrailingWs cs).isEmpty && isJsWs c) = true
    · rw [if_pos hcond]
      exact Or.inl rfl
    · rw [if_neg hcond]
      right
      show (if (dropTrailingWs cs).isEmpty && isJsWs c then [] else
        c :: dropTrailingWs cs).head? = _
      rw [if_neg hcond]
      rfl

theorem jsTrim_idem (s : List Char) : jsTrim (jsTrim s) = jsTrim s := by
  unfold jsTrim
  have h1 : (dropTrailingWs (s.dropWhile isJsWs)).dropWhile isJsWs =
      dropTrailingWs (s.dropWhile isJsWs) := by
    rcases dropTrailingWs_head (s.dropWhile isJsWs) with h | h
    · rw [h]
      rfl
    · cases ht : dropTrailingWs (s.dropWhile isJsWs) with
      | nil => rfl
      | cons c cs =>
        rw [ht] at h
        cases hd : s.dropWhile isJsWs with
        | nil => rw [hd] at h; simp at h
        | cons d ds =>
          rw [hd] at h
          simp only [List.head?_cons, Option.some.injEq] at h
          subst h
          rw [List.dropWhile_cons, if_neg]
          rw [dropWhile_head_neg hd]
          simp
  rw [h1, dropTrailingWs_idem]

theorem jsTrim_head {s : List Char} {c : Char} {cs : List Char}
    (h : jsTrim s = c :: cs) : isJsWs c = false := by
  unfold jsTrim at h
  rcases dropTrailingWs_head (s.dropWhile isJsWs) with h2 | h2
  · rw [h2] at h
    simp at h
  · rw [h] at h2
    cases hd : s.dropWhile isJsWs with
    | nil => rw [hd] at h2; simp at h2
    | cons d ds =>
      rw [hd] at h2
      simp only [List.head?_cons, Option.some.injEq] at h2
      subst h2
      exact dropWhile_head_neg hd

theorem evaluateExpressionL_trim (r : List Char) :
    evaluateExpressionL (jsTrim r) = evaluateExpressionL r := by
  unfold evaluateExpressionL
  rw [jsTrim_idem]

theorem takeWhile_all {p : Char → Bool} {l : List Char} (h : l.all p = true) :
    l.takeWhile p = l := by
  induction l with
  | nil => rfl
  | cons c cs ih =>
    simp only [List.all_cons, Bool.and_eq_true] at h
    simp [List.takeWhile_cons, h.1, ih h.2]

theorem dropWhile_all {p : Char → Bool} {l : List Char} (h : l.all p = true) :
    l.dropWhile p = [] := by
  induction l with
  | nil => rfl
  | cons c cs ih =>
    simp only [List.all_cons, Bool.and_eq_true] at h
    simp [List.dropWhile_cons, h.1, ih h.2]

theorem jsNumber_equals (l : List Char) : jsNumber ('=' :: l) = none := by
  have ht : jsTrim ('=' :: l) = '=' :: dropTrailingWs l := by
    unfold jsTrim
    rw [List.dropWhile_cons, if_neg (by decide)]
    show (if (dropTrailingWs l).isEmpty && isJsWs '=' then [] else '=' :: dropTrailingWs l)
      = _
    rw [if_neg (by simp [(by decide : isJsWs '=' = false)])]
  unfold jsNumber
  rw [ht]
  cases hdt : dropTrailingWs l with
  | nil => decide
  | cons d ds =>
    show decBody ('=' :: d :: ds) = none
    unfold decBody
    rw [List.takeWhile_cons, if_neg (by decide), List.dropWhile_cons, if_neg (by decide)]
    simp

theorem plainBody_chars {s : List Char} (h : plainBody s = true) :
    ∀ c ∈ s, isDigit c = true ∨ c = '.' := by
  intro c hc
  unfold plainBody at h
  rw [← List.takeWhile_append_dropWhile isDigit s] at hc
  rcases List.mem_append.mp hc with hc1 | hc2
  · exact Or.inl (List.mem_takeWhile_imp hc1)
  · by_cases hd : (s.takeWhile isDigit).isEmpty
    · simp only [hd, if_true] at h
      split at h
      · rename_i rest heq
        rw [heq] at hc2
        rcases List.mem_cons.mp hc2 with rfl | hc3
        · exact Or.inr rfl
        · simp only [Bool.and_eq_true, List.all_eq_true] at h
          exact Or.inl (h.2 c hc3)
      · exact absurd h (by simp)
    · simp only [hd, Bool.false_eq_true, if_false] at h
      split at h
      · rename_i heq
        rw [heq] at hc2
        simp at hc2
      · rename_i rest heq
        rw [heq] at hc2
        rcases List.mem_cons.mp hc2 with rfl | hc3
        · exact Or.inr rfl
        · rw [List.all_eq_true] at h
          exact Or.inl (h c hc3)
      · exact absurd h (by simp)

theorem plain_chars {t : List Char} (h : plainNumber t = true) :
    ∀ c ∈ t, isDigit c = true ∨ c = '.' ∨ c = '+' ∨ c = '-' := by
  intro c hc
  match t, hc, h with
  | a :: as, hc, h =>
    rw [show plainNumber (a :: as) =
      (if a = '+' || a = '-' then plainBody as else plainBody (a :: as)) from rfl] at h
    by_cases hs : (a = '+' || a = '-') = true
    · rw [if_pos hs] at h
      rcases List.mem_cons.mp hc with rfl | hc2
      · simp only [Bool.or_eq_true, decide_eq_true_eq] at hs
        tauto
      · rcases plainBody_chars h c hc2 with h2 | h2 <;> tauto
    · rw [if_neg hs] at h
      rcases plainBody_chars h c hc with h2 | h2 <;> tauto

theorem decBody_plain {s : List Char} (h : plainBody s = true) :
    decBody s = some (plainBodyVal s) := by
  unfold plainBody at h
  by_cases hd : (s.takeWhile isDigit).isEmpty
  · rw [if_pos hd] at h
    split at h
    · rename_i rest heq
      simp only [Bool.and_eq_true, Bool.not_eq_eq_eq_not, Bool.not_false] at h
      simp only [decBody, plainBodyVal, heq, takeWhile_all h.2, dropWhile_all h.2, h.1,
        Bool.not_true, Bool.and_false, Bool.false_eq_true, if_false, List.drop_succ_cons,
        List.drop_zero]
    · exact absurd h (by simp)
  · rw [if_neg hd] at h
    split at h
    · rename_i heq
      have hd2 : (s.takeWhile isDigit).isEmpty = false := by
        cases hx : (s.takeWhile isDigit).isEmpty
        · rfl
        · exact absurd hx hd
      simp only [decBody, plainBodyVal, heq, hd2, Bool.false_eq_true, if_false,
        List.drop_nil, natOfDigits, List.foldl_nil, List.length_nil, pow_zero]
      norm_num
    · rename_i rest heq
      have hd2 : (s.takeWhile isDigit).isEmpty = false := by
        cases hx : (s.takeWhile isDigit).isEmpty
        · rfl
        · exact absurd hx hd
      simp only [decBody, plainBodyVal, heq, takeWhile_all h, dropWhile_all h, hd2,
        Bool.false_and, Bool.false_eq_true, if_false, List.drop_succ_cons, List.drop_zero]
    · exact absurd h (by simp)

theorem decParse_nosign {a : Char} {as : List Char} (h : ¬(a = '+' ∨ a = '-')) :
    decParse (a :: as) = decBody (a :: as) := by
  unfold decParse
  split
  · rename_i r heq
    exact absurd (Or.inl (List.cons.injEq .. ▸ heq).1) h
  · rename_i r heq
    exact absurd (Or.inr (List.cons.injEq .. ▸ heq).1) h
  · rfl

theorem parseFloatPlain_nosign {a : Char} {as : List Char} (h : ¬(a = '+' ∨ a = '-')) :
    parseFloatPlain (a :: as) = plainBodyVal (a :: as) := by
  unfold parseFloatPlain
  split
  · rename_i r heq
    exact absurd (Or.inl (List.cons.injEq .. ▸ heq).1) h
  · rename_i r heq
    exact absurd (Or.inr (List.cons.injEq .. ▸ heq).1) h
  · rfl

theorem decParse_plain {t : List Char} (h : plainNumber t = true) :
    decParse t = some (parseFloatPlain t) := by
  match t, h with
  | a :: as, h =>
    rw [show plainNumber (a :: as) = (if a = '+' || a = '-' then plainBody as
      else plainBody (a :: as)) from rfl] at h
    by_cases hs : (a = '+' || a = '-') = true
    · rw [if_pos hs] at h
      simp only [Bool.or_eq_true, decide_eq_true_eq] at hs
      rcases hs with rfl | rfl
      · show decBody as = some (plainBodyVal as)
        exact decBody_plain h
      · show Option.map (fun v => -v) (decBody as) = some (-plainBodyVal as)
        rw [decBody_plain h]
        rfl
    · rw [if_neg hs] at h
      have hs2 : ¬(a = '+' ∨ a = '-') := by
        intro hx
        exact hs (by simp only [Bool.or_eq_true, decide_eq_true_eq]; exact hx)
      rw [decParse_nosign hs2, parseFloatPlain_nosign hs2]
      exact decBody_plain h

theorem jsNumber_cons2 (c1 c2 : Char) (rest : List Char)
    (htr : jsTrim (c1 :: c2 :: rest) = c1 :: c2 :: rest) :
    jsNumber (c1 :: c2 :: rest) =
      if c1 = '0' && (c2 = 'x' || c2 = 'X') then
        (if !rest.isEmpty && rest.all isHexDigit then some (natOfBase 16 rest : ℚ) else none)
      else if c1 = '0' && (c2 = 'o' || c2 = 'O') then
        (if !rest.isEmpty && rest.all isOctDigit then some (natOfBase 8 rest : ℚ) else none)
      else if c1 = '0' && (c2 = 'b' || c2 = 'B') then
        (if !rest.isEmpty && rest.all isBinDigit then some (natOfBase 2 rest : ℚ) else none)
      else decParse (c1 :: c2 :: rest) := by
  unfold jsNumber
  rw [htr]

theorem jsNumber_plain {t : List Char} (h : plainNumber t = true) :
    jsNumber t = some (parseFloatPlain t) := by
  have hchars := plain_chars h
  have hnws : ∀ c ∈ t, isJsWs c = false := by
    intro c hc
    rcases hchars c hc with h1 | h1 | h1 | h1
    · exact digit_not_jsWs h1
    all_goals (subst h1; decide)
  have htr : jsTrim t = t := jsTrim_id hnws
  unfold jsNumber
  rw [htr]
  match t, h with
  | [], h => simp [plainNumber] at h
  | [c1], h =>
    show decParse [c1] = some (parseFloatPlain [c1])
    exact decParse_plain h
  | c1 :: c2 :: rest, h =>
    by_cases h00 : c1 = '0'
    · subst h00
      have hc2 : isDigit c2 = true ∨ c2 = '.' := by
        by_cases hd2 : isDigit c2
        · exact Or.inl hd2
        · right
          rw [show plainNumber ('0' :: c2 :: rest) =
            (if ('0' : Char) = '+' || ('0' : Char) = '-' then plainBody (c2 :: rest)
             else plainBody ('0' :: c2 :: rest)) from rfl, if_neg (by decide)] at h
          unfold plainBody at h
          simp only [List.takeWhile_cons, List.dropWhile_cons,
            (show isDigit '0' = true from by decide), if_true, hd2, Bool.false_eq_true,
            if_false, List.isEmpty_cons] at h
          split at h
          · rename_i heq
            exact absurd heq (by simp)
          · rename_i rest2 heq
            exact (List.cons.injEq .. ▸ heq).1
          · exact absurd h (by simp)
      have hnl : ∀ z : Char, isDigit z = false → z ≠ '.' → c2 ≠ z := by
        intro z hz hzd hcontra
        rcases hc2 with hd2 | hd2
        · rw [hcontra] at hd2
          rw [hd2] at hz
          exact absurd hz (by simp)
        · rw [hd2] at hcontra
          exact hzd hcontra.symm
      have hx1 := hnl 'x' (by decide) (by decide)
      have hx2 := hnl 'X' (by decide) (by decide)
      have ho1 := hnl 'o' (by decide) (by decide)
      have ho2 := hnl 'O' (by decide) (by decide)
      have hb1 := hnl 'b' (by decide) (by decide)
      have hb2 := hnl 'B' (by decide) (by decide)
      rw [show (let t := '0' :: c2 :: rest;
          match t with
          | [] => (some 0 : Option ℚ)
          | c1 :: c2 :: rest =>
            if c1 = '0' && (c2 = 'x' || c2 = 'X') then
              (if !rest.isEmpty && rest.all isHexDigit then some (natOfBase 16 rest : ℚ)
               else none)
            else if c1 = '0' && (c2 = 'o' || c2 = 'O') then
              (if !rest.isEmpty && rest.all isOctDigit then some (natOfBase 8 rest : ℚ)
               else none)
            else if c1 = '0' && (c2 = 'b' || c2 = 'B') then
              (if !rest.isEmpty && rest.all isBinDigit then some (natOfBase 2 rest : ℚ)
               else none)
            else decParse (c1 :: c2 :: rest)
          | t1 => decParse t1) =
        (if ('0' : Char) = '0' && (c2 = 'x' || c2 = 'X') then
          (if !rest.isEmpty && rest.all isHexDigit then some (natOfBase 16 rest : ℚ)
           else none)
        else if ('0' : Char) = '0' && (c2 = 'o' || c2 = 'O') then
          (if !rest.isEmpty && rest.all isOctDigit then some (natOfBase 8 rest : ℚ)
           else none)
        else if ('0' : Char) = '0' && (c2 = 'b' || c2 = 'B') then
          (if !rest.isEmpty && rest.all isBinDigit then some (natOfBase 2 rest : ℚ)
           else none)
        else decParse ('0' :: c2 :: rest)) from rfl]
      rw [if_neg (by simp [hx1, hx2]), if_neg (by simp [ho1, ho2]),
        if_neg (by simp [hb1, hb2])]
      exact decParse_plain h
    · rw [show (let t := c1 :: c2 :: rest;
          match t with
          | [] => (some 0 : Option ℚ)
          | c1 :: c2 :: rest =>
            if c1 = '0' && (c2 = 'x' || c2 = 'X') then
              (if !rest.isEmpty && rest.all isHexDigit then some (natOfBase 16 rest : ℚ)
               else none)
            else if c1 = '0' && (c2 = 'o' || c2 = 'O') then
              (if !rest.isEmpty && rest.all isOctDigit then some (natOfBase 8 rest : ℚ)
               else none)
            else if c1 = '0' && (c2 = 'b' || c2 = 'B') then
              (if !rest.isEmpty && rest.all isBinDigit then some (natOfBase 2 rest : ℚ)
               else none)
            else decParse (c1 :: c2 :: rest)
          | t1 => decParse t1) =
        (if c1 = '0' && (c2 = 'x' || c2 = 'X') then
          (if !rest.isEmpty && rest.all isHexDigit then some (natOfBase 16 rest : ℚ)
           else none)
        else if c1 = '0' && (c2 = 'o' || c2 = 'O') then
          (if !rest.isEmpty && rest.all isOctDigit then some (natOfBase 8 rest : ℚ)
           else none)
        else if c1 = '0' && (c2 = 'b' || c2 = 'B') then
          (if !rest.isEmpty && rest.all isBinDigit then some (natOfBase 2 rest : ℚ)
           else none)
        else decParse (c1 :: c2 :: rest)) from rfl]
      rw [if_neg (by simp [h00]), if_neg (by simp [h00]), if_neg (by simp [h00])]
      exact decParse_plain h

theorem plain_not_ws {t : List Char} (h : plainNumber t = true) :
    ∀ c ∈ t, isJsWs c = false := by
  intro c hc
  rcases plain_chars h c hc with h1 | h1 | h1 | h1
  · exact digit_not_jsWs h1
  all_goals (subst h1; decide)

theorem extract_plain_none {t : List Char} (htr : jsTrim t = t)
    (h : plainNumber (t.filter (fun c => c ≠ ',')) = true) :
    extractExpressionL t = none := by
  have hne : t ≠ [] := by
    rintro rfl
    simp [plainNumber] at h
  have hie : t.isEmpty = false := by
    cases hx : t with
    | nil => exact absurd hx hne
    | cons a as => rfl
  have hnoeq : ('=' : Char) ∉ t := by
    intro hmem
    have hmf : ('=' : Char) ∈ t.filter (fun c => c ≠ ',') := by
      rw [List.mem_filter]
      exact ⟨hmem, by decide⟩
    rcases plain_chars h '=' hmf with h1 | h1 | h1 | h1 <;> exact absurd h1 (by decide)
  have hhead : ¬(t.head? = some '=') := by
    cases hx : t with
    | nil => simp
    | cons a as =>
      simp only [List.head?_cons, Option.some.injEq]
      intro hq
      rw [hx] at hnoeq
      exact hnoeq (hq ▸ List.mem_cons_self a as)
  unfold extractExpressionL
  simp only [htr]
  rw [if_neg (by simp [hie])]
  rw [if_neg hhead]
  rw [if_neg (by simp [hie])]
  by_cases hcomma : (',' : Char) ∈ t
  · have hat : allowedTest t = false := by
      have hf : t.all allowedChar = false := by
        by_contra hx
        rw [Bool.not_eq_false, List.all_eq_true] at hx
        exact absurd (hx ',' hcomma) (by decide)
      simp [allowedTest, hf]
    rw [if_pos (by simp [hat])]
  · have hfilter : t.filter (fun c => c ≠ ',') = t := by
      rw [List.filter_eq_self]
      intro a ha
      simp only [ne_eq, decide_eq_true_eq]
      intro hcon
      exact hcomma (hcon ▸ ha)
    rw [hfilter] at h
    have hat : allowedTest t = true := by
      simp only [allowedTest, Bool.and_eq_true, Bool.not_eq_eq_eq_not, Bool.not_false]
      refine ⟨hie, ?_⟩
      rw [List.all_eq_true]
      intro c hc
      rcases plain_chars h c hc with h1 | h1 | h1 | h1
      · simp [allowedChar, h1]
      all_goals (subst h1; decide)
    rw [if_neg (by simp [hat])]
    have hcompact : t.filter (fun c => !isJsWs c) = t := by
      rw [List.filter_eq_self]
      intro a ha
      simp [plain_not_ws h a ha]
    rw [hcompact]
    rw [if_neg (by simp [hie])]
    by_cases hany : t.any isExprOpChar = true
    · rw [if_neg (by simp [hhead, hany])]
      rw [if_pos (by simp [hhead, h])]
    · rw [if_pos (by simp [hhead, hany])]

/-- C6: on every input whose comma-stripped trimmed form matches the plain
signed decimal pattern, `parseValue` returns exactly what `parseFloat`
returns on that comma-stripped form (the expression path never fires); and
when the input is not recognized as an expression and its comma-stripped
form is not a finite number, `parseValue` fails with the sentinel. -/
theorem C6_plain_decimal :
    (∀ s : List Char, plainNumber ((jsTrim s).filter (fun c => c ≠ ',')) = true →
      parseValueL s = some (parseFloatPlain ((jsTrim s).filter (fun c => c ≠ ',')))) ∧
    (∀ s : List Char, extractExpressionL (jsTrim s) = none →
      jsNumber ((jsTrim s).filter (fun c => c ≠ ',')) = none →
      parseValueL s = none) := by
  constructor
  · intro s hplain
    have hne : jsTrim s ≠ [] := by
      rintro h0
      rw [h0] at hplain
      simp [plainNumber] at hplain
    have hie : (jsTrim s).isEmpty = false := by
      cases hx : jsTrim s with
      | nil => exact absurd hx hne
      | cons a as => rfl
    have hext : extractExpressionL (jsTrim s) = none :=
      extract_plain_none (jsTrim_idem s) hplain
    unfold parseValueL
    simp only [hie, Bool.false_eq_true, if_false, hext]
    rw [jsNumber_plain hplain]
  · intro s hext hnum
    unfold parseValueL
    by_cases hie : (jsTrim s).isEmpty
    · simp [hie]
    · simp only [hie, Bool.false_eq_true, if_false, hext, hnum]
      simp

/-- Witness for C6: `"1,234.5"` parses through the comma-stripped plain
path to `1234.5`, and `"abc"` (not an expression, not a number) fails. -/
theorem C6_plain_decimal_witness :
    parseValueL ("1,234.5" : String).data =
      some (parseFloatPlain (("1,234.5" : String).data.filter (fun c => c ≠ ','))) ∧
    parseValueL ("abc" : String).data = none := by
  constructor
  · have h := C6_plain_decimal.1 ("1,234.5" : String).data (by decide)
    have htr : jsTrim ("1,234.5" : String).data = ("1,234.5" : String).data := by decide
    rw [htr] at h
    exact h
  · exact C6_plain_decimal.2 ("abc" : String).data (by decide) (by decide)

theorem extract_equals_none_empty {r : List Char} (hidem : jsTrim ('=' :: r) = '=' :: r)
    (h : (jsTrim r).isEmpty = true) : extractExpressionL ('=' :: r) = none := by
  unfold extractExpressionL
  simp only [hidem]
  rw [if_neg (by simp)]
  rw [if_pos (show ('=' :: r).head? = some '=' from rfl)]
  simp only [List.drop_succ_cons, List.drop_zero]
  rw [if_pos h]

theorem extract_equals_none_notallowed {r : List Char}
    (hidem : jsTrim ('=' :: r) = '=' :: r) (hne : (jsTrim r).isEmpty = false)
    (hall : allowedTest (jsTrim r) = false) : extractExpressionL ('=' :: r) = none := by
  unfold extractExpressionL
  simp only [hidem]
  rw [if_neg (by simp)]
  rw [if_pos (show ('=' :: r).head? = some '=' from rfl)]
  simp only [List.drop_succ_cons, List.drop_zero]
  rw [if_neg (by simp [hne])]
  rw [if_pos (by simp [hall])]

theorem extract_equals_some {r : List Char} (hidem : jsTrim ('=' :: r) = '=' :: r)
    (hne : (jsTrim r).isEmpty = false) (hall : allowedTest (jsTrim r) = true) :
    extractExpressionL ('=' :: r) = some (jsTrim r) := by
  have hcne : ((jsTrim r).filter (fun c => !isJsWs c)).isEmpty = false := by
    cases hjr : jsTrim r with
    | nil => rw [hjr] at hne; exact absurd hne (by simp)
    | cons c cs =>
      have hcw : isJsWs c = false := jsTrim_head hjr
      simp [List.filter_cons, hcw]
  unfold extractExpressionL
  simp only [hidem]
  rw [if_neg (by simp)]
  rw [if_pos (show ('=' :: r).head? = some '=' from rfl)]
  simp only [List.drop_succ_cons, List.drop_zero]
  rw [if_neg (by simp [hne])]
  rw [if_neg (by simp [hall])]
  rw [if_neg (by simp [hcne])]
  rw [if_neg (by simp)]
  rw [if_neg (by simp)]

/-- C2, counterexample to the claim as stated: `"42)"` is treated as an
expression by the extractor (the operator-character test of the source
uses the class `[+\-*/()]`, which contains `)`), although it contains none
of `+ - * / (` and does not match the plain signed decimal pattern — so
"evaluated as an expression only if it contains at least one of `+ - * /
(`" fails. -/
theorem C2_counterexample :
    extractExpression "42)" = some "42)" ∧
    (∀ c ∈ ("42)" : String).data,
      ¬(c = '+' ∨ c = '-' ∨ c = '*' ∨ c = '/' ∨ c = '(')) ∧
    plainNumber ("42)" : String).data = false := by
  refine ⟨by decide, by decide, by decide⟩

/-- C2 (amended): an input whose trimmed form starts with `=` is always
evaluated as an expression after stripping the prefix (`parseValue` agrees
with `evaluateExpression` on the remainder, and the empty remainder
fails); an input without the prefix is treated as an expression only if
its whitespace-compacted form contains at least one of `+ - * / ( )` (the
claim as stated omits `)`) and does not match the plain signed decimal
pattern.  `parseValue "42" = 42` and `parseValue "-3.5" = -3.5` via plain
parsing, `parseValue "4+2" = 6` and `parseValue "=42" = 42` via the
evaluator. -/
theorem C2_expression_detection :
    (∀ s r : List Char, jsTrim s = '=' :: r → parseValueL s = evaluateExpressionL r) ∧
    (∀ t e : List Char, extractExpressionL t = some e →
      (jsTrim t).head? ≠ some '=' →
      ((jsTrim t).filter (fun c => !isJsWs c)).any isExprOpChar = true ∧
      plainNumber ((jsTrim t).filter (fun c => !isJsWs c)) = false) ∧
    parseValue "42" = some 42 ∧ extractExpression "42" = none ∧
    parseValue "-3.5" = some (-(7 / 2)) ∧ extractExpression "-3.5" = none ∧
    parseValue "4+2" = some 6 ∧ extractExpression "4+2" = some "4+2" ∧
    parseValue "=42" = some 42 ∧ extractExpression "=42" = some "42" ∧
    parseValue "=" = none := by
  refine ⟨?_, ?_, by decide, by decide, by decide, by decide, by decide, by decide,
    by decide, by decide, by decide⟩
  · intro s r htr
    have hidem : jsTrim ('=' :: r) = '=' :: r := by
      conv_lhs => rw [← htr]
      rw [jsTrim_idem, htr]
    have hfilter : ('=' :: r).filter (fun c => c ≠ ',') =
        '=' :: r.filter (fun c => c ≠ ',') := by simp
    unfold parseValueL
    simp only [htr]
    rw [if_neg (by simp)]
    by_cases hne : (jsTrim r).isEmpty
    · simp only [extract_equals_none_empty hidem hne]
      rw [hfilter, jsNumber_equals]
      rw [show evaluateExpressionL r = none from by simp [evaluateExpressionL, hne]]
      simp
    · have hne2 : (jsTrim r).isEmpty = false := by
        cases hx : (jsTrim r).isEmpty
        · rfl
        · exact absurd hx hne
      by_cases hall : allowedTest (jsTrim r)
      · simp only [extract_equals_some hidem hne2 hall]
        rw [evaluateExpressionL_trim]
        cases heval : evaluateExpressionL r with
        | some v => simp [heval]
        | none =>
          simp only [heval]
          rw [hfilter, jsNumber_equals]
          simp
      · have hallf : allowedTest (jsTrim r) = false := by
          cases hx : allowedTest (jsTrim r)
          · rfl
          · exact absurd hx hall
        simp only [extract_equals_none_notallowed hidem hne2 hallf]
        rw [hfilter, jsNumber_equals]
        rw [show evaluateExpressionL r = none from by
          simp [evaluateExpressionL, hne2, hallf]]
        simp
  · intro t e hx hnq
    simp only [extractExpressionL] at hx
    by_cases h1 : (jsTrim t).isEmpty
    · rw [if_pos h1] at hx
      exact absurd hx (by simp)
    · rw [if_neg h1] at hx
      rw [if_neg hnq] at hx
      rw [if_neg h1] at hx
      by_cases h2 : allowedTest (jsTrim t)
      · rw [if_neg (by simp [h2])] at hx
        by_cases h3 : ((jsTrim t).filter (fun c => !isJsWs c)).isEmpty
        · rw [if_pos h3] at hx
          exact absurd hx (by simp)
        · rw [if_neg h3] at hx
          by_cases h4 : ((jsTrim t).filter (fun c => !isJsWs c)).any isExprOpChar
          · refine ⟨h4, ?_⟩
            by_cases h5 : plainNumber ((jsTrim t).filter (fun c => !isJsWs c))
            · rw [if_neg (by simp [hnq, h4])] at hx
              rw [if_pos (by simp [hnq, h5])] at hx
              exact absurd hx (by simp)
            · cases hx5 : plainNumber ((jsTrim t).filter (fun c => !isJsWs c))
              · rfl
              · exact absurd hx5 h5
          · rw [if_pos (by
              simp only [Bool.and_eq_true, Bool.not_eq_eq_eq_not, Bool.not_false]
              constructor
              · simp [hnq]
              · simp [h4])] at hx
            exact absurd hx (by simp)
      · rw [if_pos (by simp [h2])] at hx
        exact absurd hx (by simp)

/-- Witness for C2: `jsTrim "=42" = '=' :: "42"` discharges the `=`-prefix
rule, and `extractExpression "4+2" = some "4+2"` discharges the
auto-detection rule. -/
theorem C2_expression_detection_witness :
    parseValueL ("=42" : String).data = evaluateExpressionL ("42" : String).data ∧
    (("4+2" : String).data.filter (fun c => !isJsWs c)).any isExprOpChar = true ∧
    plainNumber (("4+2" : String).data.filter (fun c => !isJsWs c)) = false := by
  constructor
  · exact C2_expression_detection.1 ("=42" : String).data ("42" : String).data (by decide)
  · have h := C2_expression_detection.2.1 ("4+2" : String).data ("4+2" : String).data
      (by decide) (by decide)
    have htr : jsTrim ("4+2" : String).data = ("4+2" : String).data := by decide
    rw [htr] at h
    exact h



end RatReducible
